import Mathlib

/-!
# Verification of the zen_nas architecture-code engine

Shallow embedding of the string-based architecture-code machinery of the
`zen_nas` repository and proofs about it:

* `PlainNet/SuperVoVKXLX.py` — the `SuperVoVKXLX` composite block family:
  decoding (`create_from_str`), serialization (`__str__`), the inner stage
  synthesis performed by `__init__`, `split` and `structure_scale`;
* `SearchSpace/search_space_ghostshuffle.py` — the search-space generator
  `gen_search_space` and its candidate-list helpers;
* `train_image_classification.py` — `one_hot` label smoothing and the
  `AverageMeter` running-average accumulator.

Strings are modelled as `List Char`; Python integers as `ℕ` (all the fields
involved are non-negative); exact arithmetic (`ℚ`) replaces floating point
where the claims are stated "in exact arithmetic".  Helpers of the repository
that are not part of the provided sources (`global_utils.smart_round`, the
parenthesis scanner `_get_right_parentheses_index_`, `is_instance_from_str`)
are modelled from the specification and marked as such.  Python's
`list(set(...))` (whose element order is interpreter-defined) is modelled as
order-preserving first-occurrence deduplication (`pydedup`).
-/

namespace ZenNas

/-! ## Characters, digits and numeric rendering -/

/-- The character for a decimal digit value, as produced by Python string
formatting of an integer. -/
def digitToChar (d : ℕ) : Char := Char.ofNat (48 + d)

/-- Decimal digit characters of `n`, most significant first, by repeated
division; `fuel` only forces structural termination and any `fuel ≥ n` gives
the digits of `n`. -/
def natToCharsAux : ℕ → ℕ → List Char
  | 0, _ => []
  | _ + 1, 0 => []
  | fuel + 1, n + 1 =>
    natToCharsAux fuel ((n + 1) / 10) ++ [digitToChar ((n + 1) % 10)]

/-- Render a natural number the way a Python f-string renders an `int`:
its decimal digits, most significant first, with `0` rendered as `"0"`. -/
def natToChars (n : ℕ) : List Char :=
  if n = 0 then [digitToChar 0] else natToCharsAux n n

/-- Parse a non-empty all-digit character list as a decimal natural number;
any other list is rejected (Python `int(...)` raises on it). -/
def parseNat (l : List Char) : Option ℕ :=
  if !l.isEmpty && l.all Char.isDigit then
    some (l.foldl (fun acc c => 10 * acc + (c.toNat - 48)) 0)
  else none

/-! ## Splitting and scanning primitives -/

/-- Python `str.split(sep)` on a one-character separator: cuts the list at every
occurrence of `sep`, keeping empty pieces, always returning at least one piece. -/
def splitOnChar (sep : Char) : List Char → List (List Char)
  | [] => [[]]
  | c :: rest =>
    if c = sep then [] :: splitOnChar sep rest
    else
      match splitOnChar sep rest with
      | [] => [[c]]
      | p :: ps => (c :: p) :: ps

/-- `str.find('|')`-based name split of `create_from_str`: if the list contains
a bar, return the part before the first bar and the part after it; otherwise
return no name and the whole list. -/
def splitBar : List Char → Option (List Char) × List Char
  | [] => (none, [])
  | c :: l =>
    if c = '|' then (some [], l)
    else
      match splitBar l with
      | (some nm, r) => (some (c :: nm), r)
      | (none, _) => (none, c :: l)

/-- Modelled from the spec: the parenthesis scanner
`PlainNet._get_right_parentheses_index_` is not part of the provided sources;
§4.1 specifies a forward scan that increments a depth counter on `(` and
decrements it on `)`.  `matchCloseAux d l` scans `l` with `d` additional open
parentheses pending beyond the initial one and returns the characters before
the close that matches the initial open, together with the remainder after it;
`none` models the unbalanced-input failure. -/
def matchCloseAux : ℕ → List Char → Option (List Char × List Char)
  | _, [] => none
  | d, c :: rest =>
    if c = ')' then
      if d = 0 then some ([], rest)
      else (matchCloseAux (d - 1) rest).map (fun p => (c :: p.1, p.2))
    else if c = '(' then (matchCloseAux (d + 1) rest).map (fun p => (c :: p.1, p.2))
    else (matchCloseAux d rest).map (fun p => (c :: p.1, p.2))

/-- Boolean check that `p` is an initial segment of `s` (models
`is_instance_from_str`, per §4.2: the code begins with the type name followed
by an opening parenthesis). -/
def listBeginsWith : List Char → List Char → Bool
  | [], _ => true
  | _ :: _, [] => false
  | a :: x, b :: y => a = b && listBeginsWith x y

/-- Order-preserving first-occurrence deduplication: the deterministic model of
Python's `list(set(...))` used throughout `gen_search_space` (CPython's actual
iteration order over a string set is interpreter-defined). -/
def pydedup {α : Type} [DecidableEq α] : List α → List α
  | [] => []
  | a :: l => a :: pydedup (l.filter (fun x => x ≠ a))
termination_by l => l.length
decreasing_by exact Nat.lt_succ_of_le (List.length_filter_le _ l)

/-! ## Rendering of block codes -/

/-- The comma-joined decimal rendering of a parameter list, as produced by the
f-strings of the source files. -/
def fieldsBody : List ℕ → List Char
  | [] => []
  | [a] => natToChars a
  | a :: rest => natToChars a ++ ',' :: fieldsBody rest

/-- `TypeName(f₁,…,fₖ)`: one block token of the architecture-code grammar. -/
def renderBlock (nm : List Char) (fields : List ℕ) : List Char :=
  nm ++ '(' :: (fieldsBody fields ++ [')'])

/-! ## The SuperVoVKXLX block family (`PlainNet/SuperVoVKXLX.py`)

A registered subclass of `SuperVoVKXLX` is determined by its class name, its
kernel size and its OSA layer count (the subclasses `SuperVoVK{3,5,7}L{1..5}`
fix `kernel_size` and `osa_layers` and forward everything else). -/

structure VoVClass where
  name : List Char
  kernel_size : ℕ
  osa_layers : ℕ
deriving DecidableEq

/-- The attributes of a decoded `SuperVoVKXLX` node that the claims are about
(the `block_list` / `module_list` materialization is excluded by the spec;
the stage synthesis feeding it is modelled separately below). -/
structure VoVNode where
  block_name : List Char
  in_channels : ℕ
  out_channels : ℕ
  stride : ℕ
  bottleneck_channels : ℕ
  sub_layers : ℕ
  kernel_size : ℕ
  osa_layers : ℕ
deriving DecidableEq

/-- The fifteen block types registered by `register_netblocks_dict`. -/
def vovRegistry : List VoVClass :=
  [⟨("SuperVoVK3L1").toList, 3, 1⟩, ⟨("SuperVoVK3L2").toList, 3, 2⟩,
   ⟨("SuperVoVK3L3").toList, 3, 3⟩, ⟨("SuperVoVK3L4").toList, 3, 4⟩,
   ⟨("SuperVoVK3L5").toList, 3, 5⟩,
   ⟨("SuperVoVK5L1").toList, 5, 1⟩, ⟨("SuperVoVK5L2").toList, 5, 2⟩,
   ⟨("SuperVoVK5L3").toList, 5, 3⟩, ⟨("SuperVoVK5L4").toList, 5, 4⟩,
   ⟨("SuperVoVK5L5").toList, 5, 5⟩,
   ⟨("SuperVoVK7L1").toList, 7, 1⟩, ⟨("SuperVoVK7L2").toList, 7, 2⟩,
   ⟨("SuperVoVK7L3").toList, 7, 3⟩, ⟨("SuperVoVK7L4").toList, 7, 4⟩,
   ⟨("SuperVoVK7L5").toList, 7, 5⟩]

/-- The block name synthesized when the code carries none:
`f'uuid{uuid.uuid4().hex}'`.  The `uuid4` draw reads random-generator state
that is not among the function's inputs; that state is made explicit here as
the `nonce` argument, rendered after the fixed `uuid` tag. -/
def uuidChars (nonce : ℕ) : List Char := ("uuid").toList ++ natToChars nonce

/-- `SuperVoVKXLX.__str__`: the canonical string
`ClassName(in_channels,out_channels,stride,bottleneck_channels,sub_layers)`;
the block name is not rendered. -/
def vovStr (cls : VoVClass) (n : VoVNode) : List Char :=
  renderBlock cls.name
    [n.in_channels, n.out_channels, n.stride, n.bottleneck_channels, n.sub_layers]

/-- `SuperVoVKXLX.create_from_str` for the subclass `cls`: check the type-name
prefix (`is_instance_from_str`), find the matching close parenthesis, strip an
optional `name|` prefix (synthesizing a fresh `uuid` name otherwise), split the
remaining parameters on commas and convert the first five to integers.
Returns the node and the unconsumed remainder; `none` models the assertion and
conversion failures of the Python code. -/
def create_from_str (cls : VoVClass) (nonce : ℕ) (s : List Char) :
    Option (VoVNode × List Char) :=
  if listBeginsWith (cls.name ++ ['(']) s then
    match matchCloseAux 0 (s.drop (cls.name.length + 1)) with
    | none => none
    | some (body, rest) =>
      match splitOnChar ',' (splitBar body).2 with
      | f0 :: f1 :: f2 :: f3 :: f4 :: _ =>
        match parseNat f0, parseNat f1, parseNat f2, parseNat f3, parseNat f4 with
        | some a, some b, some c, some d, some e =>
          some ({ block_name := (splitBar body).1.getD (uuidChars nonce),
                  in_channels := a, out_channels := b, stride := c,
                  bottleneck_channels := d, sub_layers := e,
                  kernel_size := cls.kernel_size, osa_layers := cls.osa_layers }, rest)
        | _, _, _, _, _ => none
      | _ => none
  else none

/-- `SuperVoVKXLX.split`: if `sub_layers` reaches the threshold, emit two
consecutive codes — the first with `threshold // 2` sub-layers and the parent's
`in_channels`/`stride`, the second with the remaining sub-layers, the parent's
`out_channels` as input and stride `1`; otherwise emit `str(self)` unchanged. -/
def vovSplit (cls : VoVClass) (n : VoVNode) (split_layer_threshold : ℕ) : List Char :=
  if split_layer_threshold ≤ n.sub_layers then
    renderBlock cls.name
      [n.in_channels, n.out_channels, n.stride, n.bottleneck_channels,
        split_layer_threshold / 2]
    ++ renderBlock cls.name
      [n.out_channels, n.out_channels, 1, n.bottleneck_channels,
        n.sub_layers - split_layer_threshold / 2]
  else vovStr cls n

/-- Modelled from the spec: `global_utils.smart_round` is not part of the
provided sources; §4.6 specifies rounding to the nearest multiple of `base`,
floored at `base` itself (ties here round up).  The sources use it with base 8. -/
def smart_round (x : ℚ) (base : ℕ) : ℕ :=
  max base ((round (x / (base : ℚ))).toNat * base)

/-- `SuperVoVKXLX.structure_scale`: both optional factors default to `scale`;
channels go through `smart_round`, the sub-layer count through
`max 1 ∘ round`, and a fresh canonical string is returned. -/
def structure_scale (cls : VoVClass) (n : VoVNode) (scale : ℚ)
    (channel_scale sub_layer_scale : Option ℚ) : List Char :=
  renderBlock cls.name
    [n.in_channels, smart_round ((n.out_channels : ℚ) * channel_scale.getD scale) 8,
      n.stride,
      smart_round ((n.bottleneck_channels : ℚ) * channel_scale.getD scale) 8,
      max 1 (round ((n.sub_layers : ℚ) * sub_layer_scale.getD scale)).toNat]

/-- The node produced by decoding `ClassName(a,b,c,d,e)` with synthesized name. -/
def mkVoVNode (cls : VoVClass) (nonce a b c d e : ℕ) : VoVNode :=
  { block_name := uuidChars nonce, in_channels := a, out_channels := b, stride := c,
    bottleneck_channels := d, sub_layers := e,
    kernel_size := cls.kernel_size, osa_layers := cls.osa_layers }

/-! ## The stage synthesis of `SuperVoVKXLX.__init__`

`__init__` builds one long string of leaf tokens and wrapper blocks and
reparses it.  The synthesized string is a concatenation of token renders in a
fixed order, so it is modelled structurally, one constructor per token kind
appended by the loop. -/

inductive Tok where
  | convKX (in_channels out_channels kernel_size stride : ℕ)
  | bn (channels : ℕ)
  | relu (channels : ℕ)
  | se (channels : ℕ)
deriving DecidableEq

/-- One stage of the synthesized string: the inner token sequence wrapped in
`OSAResBlock(...)` (reslink) or `OSABlock(...)` (no reslink). -/
inductive StageTok where
  | osaRes (inner : List Tok)
  | osaPlain (inner : List Tok)
deriving DecidableEq

def innerOf : StageTok → List Tok
  | .osaRes i => i
  | .osaPlain i => i

/-- The `for l in range(osa_layers)` loop of `__init__`: each iteration appends
a `ConvKX(temp_last_channels, bottleneck_channels, kernel_size, current_stride)`
token plus optional `BN`/`RELU`, then sets `temp_last_channels` to the
bottleneck width and `current_stride` to 1. -/
def convChain (btl k : ℕ) (noBN noRelu : Bool) : ℕ → ℕ → ℕ → List Tok
  | 0, _, _ => []
  | l + 1, lastC, stride =>
    Tok.convKX lastC btl k stride ::
      ((if noBN then [] else [Tok.bn btl]) ++ (if noRelu then [] else [Tok.relu btl]) ++
        convChain btl k noBN noRelu l btl 1)

/-- The inner token string of a single stage: the OSA convolution chain, then
the channel-lowering projection (`ConvKX(osa_layers * bottleneck_channels,
out_channels, 1, 1)` with reslink, `ConvKX(bottleneck_channels, out_channels,
1, 1)` without), then optional `BN`/`RELU`/`SE` on `out_channels`. -/
def stageInner (outC btl k osa : ℕ) (noRes noBN noRelu useSe : Bool)
    (lastC stride : ℕ) : List Tok :=
  convChain btl k noBN noRelu osa lastC stride
    ++ [Tok.convKX (if noRes then btl else osa * btl) outC 1 1]
    ++ (if noBN then [] else [Tok.bn outC])
    ++ (if noRelu then [] else [Tok.relu outC])
    ++ (if useSe then [Tok.se outC] else [])

/-- The `for i in range(self.sub_layers)` loop of `__init__`: each iteration
emits one wrapped stage and updates `last_channels := out_channels`;
`current_stride` is 1 after any stage that ran at least one inner iteration. -/
def vovStages (outC btl k osa : ℕ) (noRes noBN noRelu useSe : Bool) :
    ℕ → ℕ → ℕ → List StageTok
  | 0, _, _ => []
  | i + 1, lastC, stride =>
    (if noRes then StageTok.osaPlain (stageInner outC btl k osa noRes noBN noRelu useSe lastC stride)
      else StageTok.osaRes (stageInner outC btl k osa noRes noBN noRelu useSe lastC stride))
      :: vovStages outC btl k osa noRes noBN noRelu useSe i outC
          (if osa = 0 then stride else 1)

/-- The synthesized token string of `SuperVoVKXLX.__init__` for a node:
`sub_layers` stages starting from `in_channels` and the declared stride. -/
def vovFullStages (inC outC st btl k osa sub : ℕ)
    (noRes noBN noRelu useSe : Bool) : List StageTok :=
  vovStages outC btl k osa noRes noBN noRelu useSe sub inC st

/-- Whether a token is a `ConvKX` convolution token. -/
def isConvKX : Tok → Bool
  | Tok.convKX _ _ _ _ => true
  | _ => false

/-- The last `ConvKX` token of a token list, if any (the element the claim
calls the end of the stage's convolution chain). -/
def lastConvKX (l : List Tok) : Option (ℕ × ℕ × ℕ × ℕ) :=
  l.foldl (fun acc t =>
    match t with
    | Tok.convKX a b c d => some (a, b, c, d)
    | _ => acc) none

/-! ## The ghost-shuffle search space (`SearchSpace/search_space_ghostshuffle.py`) -/

/-- A block type of the search-space family.  The classes
`SuperGhostShuffle.SuperGhostShuffleK{3,5,7}` live outside the provided
sources; `gen_search_space` uses them only as dictionary keys and for their
`__name__`, which is all that is modelled. -/
structure GSType where
  name : List Char
deriving DecidableEq

def ghostK3 : GSType := ⟨("SuperGhostShuffleK3").toList⟩

def ghostK5 : GSType := ⟨("SuperGhostShuffleK5").toList⟩

def ghostK7 : GSType := ⟨("SuperGhostShuffleK7").toList⟩

/-- `seach_space_block_type_list_list`: a single family of three types. -/
def familyList : List GSType := [ghostK3, ghostK5, ghostK7]

/-- `__block_type_round_channels_base_dict__`: every registered type maps to 8. -/
def roundChannelsBase (_ : GSType) : ℕ := 8

/-- `__block_type_min_channels_base_dict__`: every registered type maps to 8. -/
def minChannelsBase (_ : GSType) : ℕ := 8

/-- `.sort(reverse=True)` on a natural-number list. -/
def sortDesc (l : List ℕ) : List ℕ := List.insertionSort (fun a b => b ≤ a) l

/-- `get_select_student_channels_list`: the nine ratio multiples of
`out_channels`, floored at 8, smart-rounded at base 8, deduplicated and
sorted descending. -/
def get_select_student_channels_list (out_channels : ℚ) : List ℕ :=
  sortDesc ((([out_channels * (5/2), out_channels * 2, out_channels * (3/2),
      out_channels * (5/4), out_channels, out_channels / (5/4),
      out_channels / (3/2), out_channels / 2, out_channels / (5/2)].map
        (fun x => max 8 x)).map
      (fun x => smart_round x 8)).dedup)

/-- `get_select_student_sublayers_list`: `sub_layers` and its ±1/±2 neighbours
(`round` on an integer is the identity), clamped at 0, deduplicated and
sorted descending. -/
def get_select_student_sublayers_list (sub_layers : ℕ) : List ℕ :=
  sortDesc (([(sub_layers : ℤ), (sub_layers : ℤ) + 1, (sub_layers : ℤ) + 2,
      (sub_layers : ℤ) - 1, (sub_layers : ℤ) - 2].map
        (fun x => (max 0 x).toNat)).dedup)

/-- The iteration order of
`itertools.product(out_channels_list, sublayers_list, bottleneck_list)`:
triples `(out, sub_layers, bottleneck)` with the rightmost factor fastest. -/
def productTriples (os ss bs : List ℕ) : List (ℕ × ℕ × ℕ) :=
  os.flatMap (fun o => ss.flatMap (fun s => bs.map (fun bt => (o, s, bt))))

/-- The filter body of `gen_search_space`: re-round both channel widths at the
type's base, drop the triple if either is below the type's minimum width or if
the sub-layer count is zero, otherwise keep the rounded triple. -/
def surviveTriple (t : GSType) (x : ℕ × ℕ × ℕ) : Option (ℕ × ℕ × ℕ) :=
  if smart_round (x.1 : ℚ) (roundChannelsBase t) < minChannelsBase t ∨
      smart_round (x.2.2 : ℚ) (roundChannelsBase t) < minChannelsBase t then none
  else if x.2.1 = 0 then none
  else some (smart_round (x.1 : ℚ) (roundChannelsBase t), x.2.1,
    smart_round (x.2.2 : ℚ) (roundChannelsBase t))

/-- The surviving rounded triples for one student type, in emission order. -/
def typeTriples (t : GSType) (os ss bs : List ℕ) : List (ℕ × ℕ × ℕ) :=
  (productTriples os ss bs).filterMap (surviveTriple t)

/-- The candidate string
`TypeName(in_channels,out,stride,bottleneck,sub_layers)` for a surviving
triple `(out, sub_layers, bottleneck)`. -/
def renderCand (t : GSType) (inC st : ℕ) (x : ℕ × ℕ × ℕ) : List Char :=
  renderBlock t.name [inC, x.1, st, x.2.2, x.2.1]

/-- The candidate strings newly emitted for one student type. -/
def typeCandidates (t : GSType) (inC st : ℕ) (os ss bs : List ℕ) : List (List Char) :=
  (typeTriples t os ss bs).map (renderCand t inC st)

/-- The `for student_block_type in student_block_type_list` loop:
`student_blocks_list` accumulates across the types of one family and is
rebound to `list(set(...))` after each type, and that new list object is
appended to the returned list of lists.  The appended object is aliased: the
next type's iterations keep appending raw candidate strings to it before the
following rebind, so at return time the list at index `j` holds the
deduplicated accumulation through type `j` followed by type `j + 1`'s raw
candidate segment; only the last list is just the final deduplicated
accumulation. -/
def genFamilyAux (inC st : ℕ) (os ss bs : List ℕ) :
    List (List Char) → List GSType → List (List (List Char))
  | _, [] => []
  | acc, [t] => [pydedup (acc ++ typeCandidates t inC st os ss bs)]
  | acc, t :: t2 :: ts =>
    (pydedup (acc ++ typeCandidates t inC st os ss bs) ++
        typeCandidates t2 inC st os ss bs) ::
      genFamilyAux inC st os ss bs
        (pydedup (acc ++ typeCandidates t inC st os ss bs)) (t2 :: ts)

/-- The target block of `gen_search_space`, as dispatched by the
`isinstance(the_block, super_blocks.SuperConvKXBNRELU)` test: either a leaf
convolution block (only its type name, channels, stride and kernel size are
read) or a composite block (channels, stride, bottleneck and sub-layers). -/
inductive TargetBlock where
  | leaf (name : List Char) (in_channels out_channels stride kernel_size : ℕ)
  | comp (in_channels out_channels stride bottleneck_channels sub_layers : ℕ)
deriving DecidableEq

/-- `gen_search_space`: for a leaf block, one candidate list sweeping the
out-channel ratios (held fixed for a kernel-size-1 head); for a composite
block, one accumulated-and-deduplicated candidate list per type of the
family, where each appended list except the last also carries the next
type's raw segment through the aliasing described at `genFamilyAux`. -/
def gen_search_space : TargetBlock → List (List (List Char))
  | .leaf nm inC o st k =>
    [pydedup ((if k = 1 then [o] else get_select_student_channels_list (o : ℚ)).map
      (fun oc => renderBlock nm [inC, oc, st, 1]))]
  | .comp inC o st btl sub =>
    genFamilyAux inC st (get_select_student_channels_list (o : ℚ))
      (get_select_student_sublayers_list sub)
      (get_select_student_channels_list (btl : ℚ)) [] familyList

/-- The `(out, bottleneck, sub_layers)` numeric fields of a rendered candidate
string (fields 1, 3 and 4 of its parameter list), used to state ordering
properties of returned candidate lists. -/
def candOutBtlSub (s : List Char) : ℕ × ℕ × ℕ :=
  match s.dropWhile (fun c => c ≠ '(') with
  | [] => (0, 0, 0)
  | _ :: rest =>
    match matchCloseAux 0 rest with
    | some (body, _) =>
      match splitOnChar ',' body with
      | [_, f1, _, f3, f4] =>
        ((parseNat f1).getD 0, (parseNat f3).getD 0, (parseNat f4).getD 0)
      | _ => (0, 0, 0)
    | none => (0, 0, 0)

/-- The ordering the spec claims for candidate lists: descending out-channel
width, ties by descending bottleneck width, then by descending sub-layers. -/
def specCandGE (s1 s2 : List Char) : Prop :=
  (candOutBtlSub s1).1 > (candOutBtlSub s2).1 ∨
    ((candOutBtlSub s1).1 = (candOutBtlSub s2).1 ∧
      ((candOutBtlSub s1).2.1 > (candOutBtlSub s2).2.1 ∨
        ((candOutBtlSub s1).2.1 = (candOutBtlSub s2).2.1 ∧
          (candOutBtlSub s1).2.2 ≥ (candOutBtlSub s2).2.2)))

instance : DecidableRel specCandGE := fun _ _ => by unfold specCandGE; infer_instance

/-- The strict ordering the generator actually emits triples in: descending
out-channel width, ties by descending sub-layers, then descending bottleneck. -/
def tripleGT (x y : ℕ × ℕ × ℕ) : Prop :=
  x.1 > y.1 ∨ (x.1 = y.1 ∧ (x.2.1 > y.2.1 ∨ (x.2.1 = y.2.1 ∧ x.2.2 > y.2.2)))

/-- The per-type returned lists as plain concatenations of candidate segments
(the shape the deduplication is shown to preserve): the list at index `j` is
the segments of types `0..j` followed — because of the aliasing mutation — by
type `j + 1`'s segment; the last list is all segments. -/
def accLists (inC st : ℕ) (os ss bs : List ℕ) :
    List (List Char) → List GSType → List (List (List Char))
  | _, [] => []
  | acc, [t] => [acc ++ typeCandidates t inC st os ss bs]
  | acc, t :: t2 :: ts =>
    ((acc ++ typeCandidates t inC st os ss bs) ++ typeCandidates t2 inC st os ss bs) ::
      accLists inC st os ss bs (acc ++ typeCandidates t inC st os ss bs) (t2 :: ts)

/-- Whether the target block's attributes satisfy the claim's validity
hypothesis: positive channel fields (sub-layer counts are non-negative by the
`ℕ` embedding). -/
def targetPos : TargetBlock → Prop
  | .leaf _ _ o _ _ => 0 < o
  | .comp _ o _ btl _ => 0 < o ∧ 0 < btl

/-- Well-formedness of one returned candidate string, per claim C2: a leaf
candidate is a rendered code over some swept out-channel width (fixed to the
block's own width for a kernel-size-1 head, and at least 8 otherwise); a
composite candidate is a rendered code of some family type whose rounded
channel widths are at least 8 and whose sub-layer count is positive. -/
def candWellFormed : TargetBlock → List Char → Prop
  | .leaf nm inC o st k, s =>
    ∃ oc, s = renderBlock nm [inC, oc, st, 1] ∧ (k = 1 → oc = o) ∧ (k ≠ 1 → 8 ≤ oc)
  | .comp inC _ st _ _, s =>
    ∃ t y, s = renderCand t inC st y ∧ 8 ≤ y.1 ∧ 8 ≤ y.2.2 ∧ 1 ≤ y.2.1

/-- The type-name segment of a candidate string (everything before the first
opening parenthesis). -/
def candName (s : List Char) : List Char := s.takeWhile (fun c => c ≠ '(')

/-! ## `train_image_classification.py`: `one_hot` and `AverageMeter` -/

/-- `one_hot(label, num_classes, smoothing_eps)` for one scalar label, in exact
arithmetic: the indicator row, and with smoothing the affine rescaling
`one_hot * (value1 - value0) + value0` with `value1 = 1 - eps + eps/C`,
`value0 = eps/C`. -/
def one_hot (label num_classes : ℕ) (smoothing_eps : Option ℚ) : List ℚ :=
  match smoothing_eps with
  | none => (List.range num_classes).map (fun j => if j = label then (1 : ℚ) else 0)
  | some e =>
    (List.range num_classes).map (fun j =>
      (if j = label then (1 : ℚ) else 0) *
          ((1 - e + e / (num_classes : ℚ)) - e / (num_classes : ℚ)) +
        e / (num_classes : ℚ))

/-- The numeric state of an `AverageMeter` (its display-only `name`, `fmt` and
`disp_avg` attributes do not enter the invariant), in exact arithmetic. -/
structure AverageMeter where
  val : ℚ
  avg : ℚ
  sum : ℚ
  count : ℚ
deriving DecidableEq

/-- `AverageMeter.reset`: zero all four numeric fields. -/
def AverageMeter.reset (_ : AverageMeter) : AverageMeter :=
  { val := 0, avg := 0, sum := 0, count := 0 }

/-- `AverageMeter.update(val, num)`: record the value, add `val * num` to the
sum, `num` to the count, and recompute the average as `sum / count`. -/
def AverageMeter.update (m : AverageMeter) (val num : ℚ) : AverageMeter :=
  { val := val, avg := (m.sum + val * num) / (m.count + num),
    sum := m.sum + val * num, count := m.count + num }

/-! ## Concrete instances used by witnesses and counterexamples -/

/-- The registered class `SuperVoVK3L1` (kernel 3, one OSA layer). -/
def wVoVCls : VoVClass := ⟨("SuperVoVK3L1").toList, 3, 1⟩

/-- A concrete composite node: channels 8→16, stride 2, bottleneck 24, seven
sub-layers. -/
def wNode : VoVNode := ⟨("blk").toList, 8, 16, 2, 24, 7, 3, 1⟩

/-- A concrete well-formed literal of type `SuperVoVK3L1`. -/
def wCode : List Char := ("SuperVoVK3L1(3,8,1,16,2)").toList

/-- A concrete composite target block for the search-space claims. -/
def wTarget : TargetBlock := TargetBlock.comp 8 8 1 8 1

/-! ## Digit and rendering lemmas -/

theorem digitToChar_toNat {d : ℕ} (hd : d < 10) : (digitToChar d).toNat = 48 + d := by
  interval_cases d <;> decide

theorem digitToChar_isDigit {d : ℕ} (hd : d < 10) : (digitToChar d).isDigit = true := by
  interval_cases d <;> decide

theorem isDigit_ne_of {c c2 : Char} (h : c.isDigit = true) (h2 : c2.isDigit = false) :
    c ≠ c2 := by
  intro he; rw [he] at h; rw [h] at h2; cases h2

theorem natToCharsAux_eq_digits :
    ∀ fuel n : ℕ, n ≤ fuel →
      natToCharsAux fuel n = ((Nat.digits 10 n).map digitToChar).reverse := by
  intro fuel
  induction fuel with
  | zero =>
    intro n hn
    interval_cases n
    simp [natToCharsAux]
  | succ fuel ih =>
    intro n hn
    match n with
    | 0 => simp [natToCharsAux]
    | n + 1 =>
      have hdiv : (n + 1) / 10 ≤ fuel := by
        have := Nat.div_lt_self (Nat.succ_pos n) (by norm_num : (1:ℕ) < 10)
        omega
      rw [natToCharsAux, ih _ hdiv,
        Nat.digits_def' (by norm_num : (1:ℕ) < 10) (Nat.succ_pos n)]
      simp

theorem natToChars_eq_digits (n : ℕ) :
    natToChars n =
      if n = 0 then [digitToChar 0] else ((Nat.digits 10 n).map digitToChar).reverse := by
  unfold natToChars
  split
  · rfl
  · exact natToCharsAux_eq_digits n n le_rfl

theorem mem_natToChars_isDigit {n : ℕ} {c : Char} (hc : c ∈ natToChars n) :
    c.isDigit = true := by
  rw [natToChars_eq_digits] at hc
  split at hc
  · rw [List.mem_singleton] at hc
    subst hc
    exact digitToChar_isDigit (by norm_num)
  · rw [List.mem_reverse, List.mem_map] at hc
    obtain ⟨d, hd, rfl⟩ := hc
    exact digitToChar_isDigit (Nat.digits_lt_base (by norm_num) hd)

theorem natToChars_ne_nil (n : ℕ) : natToChars n ≠ [] := by
  rw [natToChars_eq_digits]
  split
  · simp
  · rename_i h
    simp only [ne_eq, List.reverse_eq_nil_iff, List.map_eq_nil_iff]
    exact Nat.digits_ne_nil_iff_ne_zero.mpr h

theorem parseNat_natToChars (n : ℕ) : parseNat (natToChars n) = some n := by
  unfold parseNat
  rw [if_pos]
  · congr 1
    by_cases h0 : n = 0
    · subst h0; decide
    · rw [natToChars_eq_digits, if_neg h0, List.foldl_reverse]
      have : ∀ L : List ℕ, (∀ d ∈ L, d < 10) →
          List.foldr (fun c acc => 10 * acc + (c.toNat - 48)) 0 (L.map digitToChar) =
            Nat.ofDigits 10 L := by
        intro L
        induction L with
        | nil => intro _; rfl
        | cons d L ih =>
          intro hL
          have hd : d < 10 := hL d (by simp)
          simp only [List.map_cons, List.foldr_cons, Nat.ofDigits_cons,
            ih (fun x hx => hL x (by simp [hx])), digitToChar_toNat hd]
          omega
      rw [this (Nat.digits 10 n) (fun d hd => Nat.digits_lt_base (by norm_num) hd)]
      exact Nat.ofDigits_digits 10 n
  · rw [Bool.and_eq_true, List.all_eq_true]
    constructor
    · cases h : (natToChars n).isEmpty
      · rfl
      · exact absurd (List.isEmpty_iff.mp h) (natToChars_ne_nil n)
    · exact fun c hc => mem_natToChars_isDigit hc

/-! ## Splitting and scanning lemmas -/

theorem listBeginsWith_append (p t : List Char) : listBeginsWith p (p ++ t) = true := by
  induction p with
  | nil => rfl
  | cons a x ih => simp [listBeginsWith, ih]

theorem splitOnChar_no_sep {sep : Char} {l : List Char} (h : ∀ c ∈ l, c ≠ sep) :
    splitOnChar sep l = [l] := by
  induction l with
  | nil => rfl
  | cons c rest ih =>
    have hc : c ≠ sep := h c (by simp)
    rw [splitOnChar, if_neg hc, ih (fun x hx => h x (by simp [hx]))]

theorem splitOnChar_append {sep : Char} {l1 : List Char} (l2 : List Char)
    (h : ∀ c ∈ l1, c ≠ sep) :
    splitOnChar sep (l1 ++ sep :: l2) = l1 :: splitOnChar sep l2 := by
  induction l1 with
  | nil => simp [splitOnChar]
  | cons c rest ih =>
    have hc : c ≠ sep := h c (by simp)
    rw [List.cons_append, splitOnChar, if_neg hc,
      ih (fun x hx => h x (by simp [hx]))]

theorem splitBar_no_bar {l : List Char} (h : ∀ c ∈ l, c ≠ '|') :
    splitBar l = (none, l) := by
  induction l with
  | nil => rfl
  | cons c rest ih =>
    have hc : c ≠ '|' := h c (by simp)
    rw [splitBar, if_neg hc, ih (fun x hx => h x (by simp [hx]))]

theorem matchCloseAux_append {body : List Char} (tail : List Char)
    (h : ∀ c ∈ body, c ≠ ')' ∧ c ≠ '(') :
    matchCloseAux 0 (body ++ ')' :: tail) = some (body, tail) := by
  induction body with
  | nil => rfl
  | cons c rest ih =>
    obtain ⟨h1, h2⟩ := h c (by simp)
    rw [List.cons_append, matchCloseAux, if_neg h1, if_neg h2,
      ih (fun x hx => h x (by simp [hx]))]
    rfl

theorem mem_fieldsBody {fs : List ℕ} {c : Char} (hc : c ∈ fieldsBody fs) :
    c.isDigit = true ∨ c = ',' := by
  induction fs with
  | nil => cases hc
  | cons a rest ih =>
    match rest, hc with
    | [], hc => exact Or.inl (mem_natToChars_isDigit hc)
    | b :: rest2, hc =>
      have he : fieldsBody (a :: b :: rest2) = natToChars a ++ ',' :: fieldsBody (b :: rest2) :=
        rfl
      rw [he, List.mem_append] at hc
      rcases hc with hc | hc
      · exact Or.inl (mem_natToChars_isDigit hc)
      · rw [List.mem_cons] at hc
        rcases hc with hc | hc
        · exact Or.inr hc
        · exact ih hc

theorem mem_fieldsBody_ne {fs : List ℕ} {c : Char} (hc : c ∈ fieldsBody fs) :
    c ≠ ')' ∧ c ≠ '(' ∧ c ≠ '|' := by
  rcases mem_fieldsBody hc with h | h
  · exact ⟨isDigit_ne_of h (by decide), isDigit_ne_of h (by decide),
      isDigit_ne_of h (by decide)⟩
  · subst h; refine ⟨by decide, by decide, by decide⟩

theorem splitOnChar_fieldsBody (fs : List ℕ) (hfs : fs ≠ []) :
    splitOnChar ',' (fieldsBody fs) = fs.map natToChars := by
  induction fs with
  | nil => exact absurd rfl hfs
  | cons a rest ih =>
    match rest with
    | [] =>
      rw [fieldsBody, List.map]
      exact splitOnChar_no_sep
        (fun c hc => isDigit_ne_of (mem_natToChars_isDigit hc) (by decide))
    | b :: rest2 =>
      have he : fieldsBody (a :: b :: rest2) = natToChars a ++ ',' :: fieldsBody (b :: rest2) :=
        rfl
      rw [he, splitOnChar_append _
        (fun c hc => isDigit_ne_of (mem_natToChars_isDigit hc) (by decide)),
        ih (by simp)]
      simp

/-! ## Decode/render round trip -/

/-- Decoding a rendered five-field block code consumes exactly that code and
recovers the five fields, for any trailing text. -/
theorem create_from_str_renderBlock (cls : VoVClass) (nonce a b c d e : ℕ)
    (tail : List Char) :
    create_from_str cls nonce (renderBlock cls.name [a, b, c, d, e] ++ tail) =
      some (mkVoVNode cls nonce a b c d e, tail) := by
  have hbody : ∀ x ∈ fieldsBody [a, b, c, d, e], x ≠ ')' ∧ x ≠ '(' :=
    fun x hx => ⟨(mem_fieldsBody_ne hx).1, (mem_fieldsBody_ne hx).2.1⟩
  have hshape : renderBlock cls.name [a, b, c, d, e] ++ tail =
      (cls.name ++ ['(']) ++ (fieldsBody [a, b, c, d, e] ++ ')' :: tail) := by
    simp [renderBlock]
  rw [create_from_str, hshape, listBeginsWith_append, if_pos rfl]
  have hdrop : ((cls.name ++ ['(']) ++ (fieldsBody [a, b, c, d, e] ++ ')' :: tail)).drop
      (cls.name.length + 1) = fieldsBody [a, b, c, d, e] ++ ')' :: tail := by
    have : (cls.name ++ ['(']).length = cls.name.length + 1 := by simp
    rw [← this, List.drop_left]
  rw [hdrop, matchCloseAux_append tail hbody]
  have hbar : splitBar (fieldsBody [a, b, c, d, e]) =
      (none, fieldsBody [a, b, c, d, e]) :=
    splitBar_no_bar (fun x hx => (mem_fieldsBody_ne hx).2.2)
  simp only [hbar, splitOnChar_fieldsBody [a, b, c, d, e] (by simp), List.map,
    parseNat_natToChars]
  rfl

/-- A successful decode fixes `kernel_size`/`osa_layers` from the class, and
every other attribute except `block_name` is independent of the uuid nonce. -/
theorem create_from_str_nonce {cls : VoVClass} {n1 : ℕ} (n2 : ℕ) {s : List Char}
    {nd : VoVNode} {r : List Char} (h : create_from_str cls n1 s = some (nd, r)) :
    nd.kernel_size = cls.kernel_size ∧ nd.osa_layers = cls.osa_layers ∧
    ∃ nd2 : VoVNode, create_from_str cls n2 s = some (nd2, r) ∧
      nd2.in_channels = nd.in_channels ∧ nd2.out_channels = nd.out_channels ∧
      nd2.stride = nd.stride ∧ nd2.bottleneck_channels = nd.bottleneck_channels ∧
      nd2.sub_layers = nd.sub_layers ∧ nd2.kernel_size = nd.kernel_size ∧
      nd2.osa_layers = nd.osa_layers := by
  unfold create_from_str at h ⊢
  split at h
  · rename_i hcond
    rw [if_pos hcond]
    split at h
    · exact absurd h (by simp)
    · split at h
      · split at h
        · rw [Option.some.injEq, Prod.mk.injEq] at h
          obtain ⟨hnd, hr⟩ := h
          subst hr
          subst hnd
          exact ⟨rfl, rfl, _, rfl, rfl, rfl, rfl, rfl, rfl, rfl, rfl⟩
        · exact absurd h (by simp)
      · exact absurd h (by simp)
  · exact absurd h (by simp)

/-! ## smart_round lemmas -/

theorem smart_round_base_le (x : ℚ) (base : ℕ) : base ≤ smart_round x base :=
  le_max_left _ _

theorem smart_round_dvd (x : ℚ) (base : ℕ) : base ∣ smart_round x base := by
  unfold smart_round
  rcases Nat.le_total base ((round (x / (base : ℚ))).toNat * base) with h | h
  · rw [Nat.max_eq_right h]
    exact Dvd.intro_left _ rfl
  · rw [Nat.max_eq_left h]

/-- `smart_round` at base 8 is the identity on positive multiples of 8. -/
theorem smart_round_eight_of_aligned {m : ℕ} (h8 : 8 ∣ m) (h0 : 0 < m) :
    smart_round (m : ℚ) 8 = m := by
  obtain ⟨k, rfl⟩ := h8
  have hk : 1 ≤ k := by omega
  unfold smart_round
  have hq : ((8 * k : ℕ) : ℚ) / ((8 : ℕ) : ℚ) = (k : ℚ) := by
    push_cast
    field_simp
  rw [hq, round_natCast, Int.toNat_natCast]
  have h8k : 8 ≤ k * 8 := by omega
  rw [Nat.max_eq_right h8k]
  omega

/-! ## C1: decode/serialize round trip -/

/-- **C1**: for every registered block type and every well-formed literal code
of that type (one on which `create_from_str` succeeds), decoding the canonical
string (`__str__`) of the decoded node again succeeds, consumes the whole
string, and reproduces `in_channels`, `out_channels`, `stride`,
`bottleneck_channels`, `sub_layers`, `kernel_size` and `osa_layers`; only the
synthesized `block_name` may differ. -/
theorem spec_c1_round_trip (cls : VoVClass) (_hcls : cls ∈ vovRegistry)
    (nonce1 nonce2 : ℕ) (s : List Char) (nd : VoVNode) (rest : List Char)
    (h : create_from_str cls nonce1 s = some (nd, rest)) :
    ∃ nd2 : VoVNode, create_from_str cls nonce2 (vovStr cls nd) = some (nd2, []) ∧
      nd2.in_channels = nd.in_channels ∧ nd2.out_channels = nd.out_channels ∧
      nd2.stride = nd.stride ∧ nd2.bottleneck_channels = nd.bottleneck_channels ∧
      nd2.sub_layers = nd.sub_layers ∧ nd2.kernel_size = nd.kernel_size ∧
      nd2.osa_layers = nd.osa_layers := by
  obtain ⟨hk, ho, -⟩ := create_from_str_nonce nonce1 h
  refine ⟨mkVoVNode cls nonce2 nd.in_channels nd.out_channels nd.stride
    nd.bottleneck_channels nd.sub_layers, ?_, rfl, rfl, rfl, rfl, rfl, hk.symm, ho.symm⟩
  have := create_from_str_renderBlock cls nonce2 nd.in_channels nd.out_channels
    nd.stride nd.bottleneck_channels nd.sub_layers []
  rw [List.append_nil] at this
  exact this

/-- Witness for C1 at the literal `SuperVoVK3L1(3,8,1,16,2)`. -/
theorem spec_c1_round_trip_witness :
    (wVoVCls ∈ vovRegistry ∧
      create_from_str wVoVCls 0 wCode = some (mkVoVNode wVoVCls 0 3 8 1 16 2, [])) ∧
    ∃ nd2 : VoVNode,
      create_from_str wVoVCls 1 (vovStr wVoVCls (mkVoVNode wVoVCls 0 3 8 1 16 2)) =
        some (nd2, []) ∧
      nd2.in_channels = (mkVoVNode wVoVCls 0 3 8 1 16 2).in_channels ∧
      nd2.out_channels = (mkVoVNode wVoVCls 0 3 8 1 16 2).out_channels ∧
      nd2.stride = (mkVoVNode wVoVCls 0 3 8 1 16 2).stride ∧
      nd2.bottleneck_channels = (mkVoVNode wVoVCls 0 3 8 1 16 2).bottleneck_channels ∧
      nd2.sub_layers = (mkVoVNode wVoVCls 0 3 8 1 16 2).sub_layers ∧
      nd2.kernel_size = (mkVoVNode wVoVCls 0 3 8 1 16 2).kernel_size ∧
      nd2.osa_layers = (mkVoVNode wVoVCls 0 3 8 1 16 2).osa_layers :=
  ⟨⟨by decide, by decide⟩,
    spec_c1_round_trip wVoVCls (by decide) 0 1 wCode
      (mkVoVNode wVoVCls 0 3 8 1 16 2) [] (by decide)⟩

/-! ## C3: the split law -/

/-- **C3**: if `sub_layers ≥ threshold`, `split` returns the concatenation of
two codes: the first decodes to `threshold // 2` sub-layers with the parent's
`in_channels` and `stride`, the second to the remaining sub-layers with
`in_channels` equal to the parent's `out_channels` and stride 1, both sharing
the parent's `out_channels` and `bottleneck_channels`; if
`sub_layers < threshold`, `split` returns the unchanged canonical string. -/
theorem spec_c3_split (cls : VoVClass) (n : VoVNode) (threshold nonce1 nonce2 : ℕ) :
    (threshold ≤ n.sub_layers →
      ∃ n1 rest n2,
        create_from_str cls nonce1 (vovSplit cls n threshold) = some (n1, rest) ∧
        create_from_str cls nonce2 rest = some (n2, []) ∧
        n1.sub_layers = threshold / 2 ∧
        n2.sub_layers = n.sub_layers - threshold / 2 ∧
        n1.in_channels = n.in_channels ∧ n1.stride = n.stride ∧
        n2.in_channels = n.out_channels ∧ n2.stride = 1 ∧
        n1.out_channels = n.out_channels ∧ n2.out_channels = n.out_channels ∧
        n1.bottleneck_channels = n.bottleneck_channels ∧
        n2.bottleneck_channels = n.bottleneck_channels) ∧
    (n.sub_layers < threshold → vovSplit cls n threshold = vovStr cls n) := by
  constructor
  · intro hle
    refine ⟨mkVoVNode cls nonce1 n.in_channels n.out_channels n.stride
        n.bottleneck_channels (threshold / 2),
      renderBlock cls.name [n.out_channels, n.out_channels, 1, n.bottleneck_channels,
        n.sub_layers - threshold / 2],
      mkVoVNode cls nonce2 n.out_channels n.out_channels 1 n.bottleneck_channels
        (n.sub_layers - threshold / 2),
      ?_, ?_, rfl, rfl, rfl, rfl, rfl, rfl, rfl, rfl, rfl, rfl⟩
    · rw [vovSplit, if_pos hle]
      exact create_from_str_renderBlock cls nonce1 n.in_channels n.out_channels
        n.stride n.bottleneck_channels (threshold / 2) _
    · have := create_from_str_renderBlock cls nonce2 n.out_channels n.out_channels 1
        n.bottleneck_channels (n.sub_layers - threshold / 2) []
      rw [List.append_nil] at this
      exact this
  · intro hlt
    rw [vovSplit, if_neg (by omega)]

/-- Witness for C3: the node with 7 sub-layers split at threshold 4 yields
sub-layer counts 2 and 5; at threshold 9 the canonical string is unchanged. -/
theorem spec_c3_split_witness :
    4 ≤ wNode.sub_layers ∧ wNode.sub_layers < 9 ∧
    (∃ n1 rest n2,
      create_from_str wVoVCls 0 (vovSplit wVoVCls wNode 4) = some (n1, rest) ∧
      create_from_str wVoVCls 0 rest = some (n2, []) ∧
      n1.sub_layers = 4 / 2 ∧
      n2.sub_layers = wNode.sub_layers - 4 / 2 ∧
      n1.in_channels = wNode.in_channels ∧ n1.stride = wNode.stride ∧
      n2.in_channels = wNode.out_channels ∧ n2.stride = 1 ∧
      n1.out_channels = wNode.out_channels ∧ n2.out_channels = wNode.out_channels ∧
      n1.bottleneck_channels = wNode.bottleneck_channels ∧
      n2.bottleneck_channels = wNode.bottleneck_channels) ∧
    vovSplit wVoVCls wNode 9 = vovStr wVoVCls wNode :=
  ⟨by decide, by decide, (spec_c3_split wVoVCls wNode 4 0 0).1 (by decide),
    (spec_c3_split wVoVCls wNode 9 0 0).2 (by decide)⟩

/-! ## C6: determinism -/

/-- **C6** (corrected): decoding is deterministic in every attribute except
`block_name` — two decodes of the same code (under different uuid draws,
modelled by the nonce) succeed together, consume the same remainder and agree
on all numeric attributes — and candidate generation is a pure function of the
target block.  The original claim's "equal block_name" part fails because the
synthesized name draws fresh `uuid4` state (see the counterexample). -/
theorem spec_c6_determinism (cls : VoVClass) (nonce1 nonce2 : ℕ) (s : List Char)
    (nd : VoVNode) (r : List Char) (h : create_from_str cls nonce1 s = some (nd, r)) :
    (∃ nd2 : VoVNode, create_from_str cls nonce2 s = some (nd2, r) ∧
      nd2.in_channels = nd.in_channels ∧ nd2.out_channels = nd.out_channels ∧
      nd2.stride = nd.stride ∧ nd2.bottleneck_channels = nd.bottleneck_channels ∧
      nd2.sub_layers = nd.sub_layers ∧ nd2.kernel_size = nd.kernel_size ∧
      nd2.osa_layers = nd.osa_layers) ∧
    ∀ tb : TargetBlock, gen_search_space tb = gen_search_space tb :=
  ⟨(create_from_str_nonce nonce2 h).2.2, fun _ => rfl⟩

/-- Witness for C6 at the literal `SuperVoVK3L1(3,8,1,16,2)`. -/
theorem spec_c6_determinism_witness :
    create_from_str wVoVCls 0 wCode = some (mkVoVNode wVoVCls 0 3 8 1 16 2, []) ∧
    ((∃ nd2 : VoVNode, create_from_str wVoVCls 1 wCode = some (nd2, []) ∧
      nd2.in_channels = (mkVoVNode wVoVCls 0 3 8 1 16 2).in_channels ∧
      nd2.out_channels = (mkVoVNode wVoVCls 0 3 8 1 16 2).out_channels ∧
      nd2.stride = (mkVoVNode wVoVCls 0 3 8 1 16 2).stride ∧
      nd2.bottleneck_channels = (mkVoVNode wVoVCls 0 3 8 1 16 2).bottleneck_channels ∧
      nd2.sub_layers = (mkVoVNode wVoVCls 0 3 8 1 16 2).sub_layers ∧
      nd2.kernel_size = (mkVoVNode wVoVCls 0 3 8 1 16 2).kernel_size ∧
      nd2.osa_layers = (mkVoVNode wVoVCls 0 3 8 1 16 2).osa_layers) ∧
    ∀ tb : TargetBlock, gen_search_space tb = gen_search_space tb) :=
  ⟨by decide,
    spec_c6_determinism wVoVCls 0 1 wCode (mkVoVNode wVoVCls 0 3 8 1 16 2) [] (by decide)⟩

/-- **C6 counterexample**: decoding the same literal twice (two draws of the
uuid state) yields different results — the synthesized `block_name` differs,
so parsing is not deterministic "including block_name" as claimed. -/
theorem spec_c6_counterexample :
    create_from_str wVoVCls 0 wCode ≠ create_from_str wVoVCls 1 wCode := by decide

/-! ## C7: scale idempotence at factor 1.0 -/

/-- **C7**: on a node whose channel widths are aligned to the rounding base
(positive multiples of 8) and with at least one sub-layer,
`structure_scale(scale=1.0)` renders a code that decodes to a node with
identical `in_channels`, `out_channels`, `stride`, `bottleneck_channels` and
`sub_layers`. -/
theorem spec_c7_scale_one (cls : VoVClass) (n : VoVNode) (nonce : ℕ)
    (hout8 : 8 ∣ n.out_channels) (hout : 0 < n.out_channels)
    (hbtl8 : 8 ∣ n.bottleneck_channels) (hbtl : 0 < n.bottleneck_channels)
    (hsub : 1 ≤ n.sub_layers) :
    ∃ nd2 : VoVNode,
      create_from_str cls nonce (structure_scale cls n 1 none none) = some (nd2, []) ∧
      nd2.in_channels = n.in_channels ∧ nd2.out_channels = n.out_channels ∧
      nd2.stride = n.stride ∧ nd2.bottleneck_channels = n.bottleneck_channels ∧
      nd2.sub_layers = n.sub_layers := by
  have hss : structure_scale cls n 1 none none =
      renderBlock cls.name [n.in_channels, n.out_channels, n.stride,
        n.bottleneck_channels, n.sub_layers] := by
    unfold structure_scale
    simp only [Option.getD_none, mul_one]
    rw [smart_round_eight_of_aligned hout8 hout,
      smart_round_eight_of_aligned hbtl8 hbtl, round_natCast, Int.toNat_natCast,
      Nat.max_eq_right hsub]
  rw [hss]
  have := create_from_str_renderBlock cls nonce n.in_channels n.out_channels n.stride
    n.bottleneck_channels n.sub_layers []
  rw [List.append_nil] at this
  exact ⟨_, this, rfl, rfl, rfl, rfl, rfl⟩

/-- Witness for C7 at a node with aligned widths 16 and 24. -/
theorem spec_c7_scale_one_witness :
    (8 ∣ wNode.out_channels ∧ 0 < wNode.out_channels ∧
      8 ∣ wNode.bottleneck_channels ∧ 0 < wNode.bottleneck_channels ∧
      1 ≤ wNode.sub_layers) ∧
    ∃ nd2 : VoVNode,
      create_from_str wVoVCls 0 (structure_scale wVoVCls wNode 1 none none) =
        some (nd2, []) ∧
      nd2.in_channels = wNode.in_channels ∧ nd2.out_channels = wNode.out_channels ∧
      nd2.stride = wNode.stride ∧
      nd2.bottleneck_channels = wNode.bottleneck_channels ∧
      nd2.sub_layers = wNode.sub_layers :=
  ⟨⟨by decide, by decide, by decide, by decide, by decide⟩,
    spec_c7_scale_one wVoVCls wNode 0 (by decide) (by decide) (by decide) (by decide)
      (by decide)⟩

/-! ## C4: the stage projection width -/

theorem foldl_lastConvKX_nonconv (sfx : List Tok) (acc : Option (ℕ × ℕ × ℕ × ℕ))
    (h : ∀ t ∈ sfx, isConvKX t = false) :
    (sfx.foldl (fun acc t =>
      match t with
      | Tok.convKX a b c d => some (a, b, c, d)
      | _ => acc) acc) = acc := by
  induction sfx generalizing acc with
  | nil => rfl
  | cons t ts ih =>
    have ht := h t (by simp)
    rw [List.foldl_cons, ih _ (fun x hx => h x (by simp [hx]))]
    cases t with
    | convKX a b c d => exact absurd ht (by simp [isConvKX])
    | bn c => rfl
    | relu c => rfl
    | se c => rfl

/-- The last convolution token of a synthesized stage is always its
channel-lowering projection. -/
theorem lastConvKX_stageInner (outC btl k osa lastC stride : ℕ)
    (noRes noBN noRelu useSe : Bool) :
    lastConvKX (stageInner outC btl k osa noRes noBN noRelu useSe lastC stride) =
      some ((if noRes then btl else osa * btl), outC, 1, 1) := by
  have hbn : ∀ t ∈ (if noBN then ([] : List Tok) else [Tok.bn outC]), isConvKX t = false := by
    cases noBN <;> simp [isConvKX]
  have hrelu : ∀ t ∈ (if noRelu then ([] : List Tok) else [Tok.relu outC]),
      isConvKX t = false := by
    cases noRelu <;> simp [isConvKX]
  have hse : ∀ t ∈ (if useSe then [Tok.se outC] else ([] : List Tok)), isConvKX t = false := by
    cases useSe <;> simp [isConvKX]
  unfold stageInner lastConvKX
  rw [List.foldl_append, List.foldl_append, List.foldl_append, List.foldl_append,
    foldl_lastConvKX_nonconv _ _ hse, foldl_lastConvKX_nonconv _ _ hrelu,
    foldl_lastConvKX_nonconv _ _ hbn, List.foldl_cons, List.foldl_nil]

/-- **C4** (corrected): in the synthesized stage strings of
`SuperVoVKXLX.__init__`, under every flag setting, every stage ends its
convolution chain with a projection `ConvKX` whose output width is
`out_channels` and whose input width is `osa_layers * bottleneck_channels`
when `no_reslink` is unset but plain `bottleneck_channels` when `no_reslink`
is set (the original claim asserted the concatenated width for all flags). -/
theorem spec_c4_projection (inC outC st btl k osa sub : ℕ)
    (noRes noBN noRelu useSe : Bool) :
    ∀ stg ∈ vovFullStages inC outC st btl k osa sub noRes noBN noRelu useSe,
      lastConvKX (innerOf stg) = some ((if noRes then btl else osa * btl), outC, 1, 1) := by
  unfold vovFullStages
  generalize inC = lastC
  generalize st = stride
  induction sub generalizing lastC stride with
  | zero => intro stg hstg; cases hstg
  | succ i ih =>
    intro stg hstg
    rw [vovStages, List.mem_cons] at hstg
    rcases hstg with h | h
    · subst h
      cases noRes
      · rw [if_neg (by simp)]
        exact lastConvKX_stageInner outC btl k osa lastC stride false noBN noRelu useSe
      · rw [if_pos rfl]
        exact lastConvKX_stageInner outC btl k osa lastC stride true noBN noRelu useSe
    · exact ih _ _ _ h

/-- Witness for C4 at a one-stage block with `no_reslink` set, two OSA layers
and bottleneck width 8. -/
theorem spec_c4_projection_witness :
    StageTok.osaPlain (stageInner 8 8 3 2 true false false false 8 2) ∈
      vovFullStages 8 8 2 8 3 2 1 true false false false ∧
    lastConvKX (innerOf (StageTok.osaPlain (stageInner 8 8 3 2 true false false false 8 2))) =
      some ((if true then 8 else 2 * 8), 8, 1, 1) :=
  ⟨by decide, spec_c4_projection 8 8 2 8 3 2 1 true false false false _ (by decide)⟩

/-- **C4 counterexample**: with `no_reslink = True`, `osa_layers = 2` and
`bottleneck_channels = 8`, the single synthesized stage's final `ConvKX` has
input width 8 (`bottleneck_channels`), not `osa_layers * bottleneck_channels
= 16` as the claim asserts for every flag setting. -/
theorem spec_c4_counterexample :
    (vovFullStages 8 8 2 8 3 2 1 true false false false).map
        (fun stg => lastConvKX (innerOf stg)) = [some (8, 8, 1, 1)] ∧
    ((8 : ℕ), (8 : ℕ), (1 : ℕ), (1 : ℕ)) ≠ ((2 * 8 : ℕ), (8 : ℕ), (1 : ℕ), (1 : ℕ)) := by
  decide

/-! ## Deduplication lemmas -/

theorem mem_pydedup {α : Type} [DecidableEq α] :
    ∀ {l : List α} {a : α}, a ∈ pydedup l ↔ a ∈ l := by
  have key : ∀ (n : ℕ) (l : List α), l.length ≤ n → ∀ a : α, (a ∈ pydedup l ↔ a ∈ l) := by
    intro n
    induction n with
    | zero =>
      intro l hl a
      rw [Nat.le_zero, List.length_eq_zero] at hl
      subst hl
      simp [pydedup]
    | succ n ih =>
      intro l hl a
      match l with
      | [] => simp [pydedup]
      | b :: t =>
        rw [pydedup]
        simp only [List.mem_cons]
        have hlen : (t.filter (fun x => x ≠ b)).length ≤ n := by
          have := List.length_filter_le (fun x => x ≠ b) t
          simp only [List.length_cons] at hl
          omega
        constructor
        · rintro (rfl | h)
          · exact Or.inl rfl
          · exact Or.inr (List.mem_of_mem_filter ((ih _ hlen a).mp h))
        · rintro (rfl | h)
          · exact Or.inl rfl
          · by_cases hab : a = b
            · exact Or.inl hab
            · refine Or.inr ((ih _ hlen a).mpr ?_)
              exact List.mem_filter.mpr ⟨h, by simp [hab]⟩
  intro l a
  exact key l.length l le_rfl a

theorem pydedup_ne_nil {α : Type} [DecidableEq α] {l : List α} (h : l ≠ []) :
    pydedup l ≠ [] := by
  match l with
  | [] => exact absurd rfl h
  | a :: t => rw [pydedup]; simp

theorem pydedup_eq_self {α : Type} [DecidableEq α] :
    ∀ {l : List α}, l.Nodup → pydedup l = l := by
  have key : ∀ (n : ℕ) (l : List α), l.length ≤ n → l.Nodup → pydedup l = l := by
    intro n
    induction n with
    | zero =>
      intro l hl _
      rw [Nat.le_zero, List.length_eq_zero] at hl
      subst hl
      simp [pydedup]
    | succ n ih =>
      intro l hl hnd
      match l with
      | [] => simp [pydedup]
      | b :: t =>
        rw [pydedup]
        rw [List.nodup_cons] at hnd
        have hfilter : t.filter (fun x => x ≠ b) = t :=
          List.filter_eq_self.mpr (fun x hx => by
            simp only [ne_eq, decide_eq_true_eq]
            intro hxb
            exact hnd.1 (hxb ▸ hx))
        rw [hfilter, ih t (by simp only [List.length_cons] at hl; omega) hnd.2]
  intro l hnd
  exact key l.length l le_rfl hnd

/-! ## Candidate-list helper lemmas -/

theorem mem_productTriples {os ss bs : List ℕ} {x : ℕ × ℕ × ℕ} :
    x ∈ productTriples os ss bs ↔ x.1 ∈ os ∧ x.2.1 ∈ ss ∧ x.2.2 ∈ bs := by
  unfold productTriples
  simp only [List.mem_flatMap, List.mem_map]
  constructor
  · rintro ⟨o, ho, s, hs, bt, hbt, rfl⟩
    exact ⟨ho, hs, hbt⟩
  · rintro ⟨ho, hs, hbt⟩
    exact ⟨x.1, ho, x.2.1, hs, x.2.2, hbt, rfl⟩

theorem mem_sortDesc {l : List ℕ} {a : ℕ} : a ∈ sortDesc l ↔ a ∈ l :=
  (List.perm_insertionSort _ l).mem_iff

theorem sortDesc_sorted (l : List ℕ) : List.Sorted (fun a b => b ≤ a) (sortDesc l) :=
  List.sorted_insertionSort _ l

theorem sortDesc_nodup {l : List ℕ} (h : l.Nodup) : (sortDesc l).Nodup :=
  ((List.perm_insertionSort _ l).nodup_iff).mpr h

theorem sortDesc_ne_nil {l : List ℕ} (h : l ≠ []) : sortDesc l ≠ [] := by
  obtain ⟨a, ha⟩ := List.exists_mem_of_ne_nil l h
  intro hnil
  have hmem : a ∈ sortDesc l := mem_sortDesc.mpr ha
  rw [hnil] at hmem
  cases hmem

theorem sortDesc_pairwise_gt {l : List ℕ} (h : l.Nodup) :
    List.Pairwise (· > ·) (sortDesc l) := by
  have hs := sortDesc_sorted l
  have hn : List.Pairwise (· ≠ ·) (sortDesc l) := sortDesc_nodup h
  exact (List.Pairwise.and hs hn).imp (fun hab => lt_of_le_of_ne hab.1 (Ne.symm hab.2))

theorem mem_channels_list {x : ℚ} {c : ℕ} (hc : c ∈ get_select_student_channels_list x) :
    8 ∣ c ∧ 8 ≤ c := by
  unfold get_select_student_channels_list at hc
  rw [mem_sortDesc, List.mem_dedup, List.mem_map] at hc
  obtain ⟨y, _, rfl⟩ := hc
  exact ⟨smart_round_dvd y 8, smart_round_base_le y 8⟩

theorem channels_list_ne_nil (x : ℚ) : get_select_student_channels_list x ≠ [] := by
  unfold get_select_student_channels_list
  apply sortDesc_ne_nil
  rw [ne_eq, List.dedup_eq_nil]
  simp

theorem channels_list_pairwise (x : ℚ) :
    List.Pairwise (· > ·) (get_select_student_channels_list x) :=
  sortDesc_pairwise_gt (List.nodup_dedup _)

theorem sublayers_list_pairwise (s : ℕ) :
    List.Pairwise (· > ·) (get_select_student_sublayers_list s) :=
  sortDesc_pairwise_gt (List.nodup_dedup _)

theorem sublayers_mem_add_two (s : ℕ) : s + 2 ∈ get_select_student_sublayers_list s := by
  unfold get_select_student_sublayers_list
  rw [mem_sortDesc, List.mem_dedup, List.mem_map]
  refine ⟨(s : ℤ) + 2, by simp, ?_⟩
  omega

/-! ## Survival-filter lemmas -/

theorem surviveTriple_eq (t : GSType) (x : ℕ × ℕ × ℕ) :
    surviveTriple t x =
      if x.2.1 = 0 then none
      else some (smart_round (x.1 : ℚ) 8, x.2.1, smart_round (x.2.2 : ℚ) 8) := by
  unfold surviveTriple roundChannelsBase minChannelsBase
  rw [if_neg]
  rw [not_or]
  exact ⟨not_lt.mpr (smart_round_base_le _ 8), not_lt.mpr (smart_round_base_le _ 8)⟩

theorem surviveTriple_aligned {x : ℕ × ℕ × ℕ} (t : GSType)
    (h1 : 8 ∣ x.1) (h2 : 8 ≤ x.1) (h3 : 8 ∣ x.2.2) (h4 : 8 ≤ x.2.2) :
    surviveTriple t x = if x.2.1 = 0 then none else some x := by
  rw [surviveTriple_eq, smart_round_eight_of_aligned h1 (by omega),
    smart_round_eight_of_aligned h3 (by omega)]

theorem mem_typeTriples_bounds {t : GSType} {os ss bs : List ℕ} {y : ℕ × ℕ × ℕ}
    (hy : y ∈ typeTriples t os ss bs) : 8 ≤ y.1 ∧ 8 ≤ y.2.2 ∧ 1 ≤ y.2.1 := by
  unfold typeTriples at hy
  rw [List.mem_filterMap] at hy
  obtain ⟨x, _, hsurv⟩ := hy
  rw [surviveTriple_eq] at hsurv
  by_cases hx : x.2.1 = 0
  · rw [if_pos hx] at hsurv
    exact absurd hsurv (by simp)
  · rw [if_neg hx, Option.some.injEq] at hsurv
    subst hsurv
    refine ⟨smart_round_base_le _ 8, smart_round_base_le _ 8, ?_⟩
    show 1 ≤ x.2.1
    omega

theorem typeTriples_ne_nil (t : GSType) {os ss bs : List ℕ} (ho : os ≠ [])
    (hb : bs ≠ []) {m : ℕ} (hm : m ∈ ss) (hm0 : m ≠ 0) :
    typeTriples t os ss bs ≠ [] := by
  obtain ⟨o0, ho0⟩ := List.exists_mem_of_ne_nil os ho
  obtain ⟨b0, hb0⟩ := List.exists_mem_of_ne_nil bs hb
  have hmem : (o0, m, b0) ∈ productTriples os ss bs :=
    mem_productTriples.mpr ⟨ho0, hm, hb0⟩
  have hsome : surviveTriple t (o0, m, b0) =
      some (smart_round (o0 : ℚ) 8, m, smart_round (b0 : ℚ) 8) := by
    rw [surviveTriple_eq, if_neg hm0]
  intro hnil
  have : (smart_round (o0 : ℚ) 8, m, smart_round (b0 : ℚ) 8) ∈ typeTriples t os ss bs := by
    unfold typeTriples
    rw [List.mem_filterMap]
    exact ⟨(o0, m, b0), hmem, hsome⟩
  rw [hnil] at this
  cases this

theorem typeCandidates_ne_nil (t : GSType) (inC st : ℕ) {os ss bs : List ℕ}
    (ho : os ≠ []) (hb : bs ≠ []) {m : ℕ} (hm : m ∈ ss) (hm0 : m ≠ 0) :
    typeCandidates t inC st os ss bs ≠ [] := by
  unfold typeCandidates
  rw [ne_eq, List.map_eq_nil_iff]
  exact typeTriples_ne_nil t ho hb hm hm0

theorem mem_typeCandidates_good {t : GSType} {inC st : ℕ} {os ss bs : List ℕ}
    {s : List Char} (hs : s ∈ typeCandidates t inC st os ss bs) :
    ∃ y : ℕ × ℕ × ℕ, s = renderCand t inC st y ∧ 8 ≤ y.1 ∧ 8 ≤ y.2.2 ∧ 1 ≤ y.2.1 := by
  unfold typeCandidates at hs
  rw [List.mem_map] at hs
  obtain ⟨y, hy, rfl⟩ := hs
  obtain ⟨h1, h2, h3⟩ := mem_typeTriples_bounds hy
  exact ⟨y, rfl, h1, h2, h3⟩

/-! ## Family-accumulation lemmas -/

theorem genFamilyAux_good (inC st : ℕ) (os ss bs : List ℕ) (ho : os ≠ [])
    (hb : bs ≠ []) {m : ℕ} (hm : m ∈ ss) (hm0 : m ≠ 0) :
    ∀ (ts : List GSType) (acc : List (List Char)),
      (∀ s ∈ acc, ∃ t y, s = renderCand t inC st y ∧ 8 ≤ y.1 ∧ 8 ≤ y.2.2 ∧ 1 ≤ y.2.1) →
      ∀ L ∈ genFamilyAux inC st os ss bs acc ts,
        L ≠ [] ∧
        ∀ s ∈ L, ∃ t y, s = renderCand t inC st y ∧ 8 ≤ y.1 ∧ 8 ≤ y.2.2 ∧ 1 ≤ y.2.1 := by
  intro ts
  induction ts with
  | nil =>
    intro acc _ L hL
    cases hL
  | cons t rest ih =>
    intro acc hacc L hL
    have hacc2 : ∀ s ∈ pydedup (acc ++ typeCandidates t inC st os ss bs),
        ∃ t2 y, s = renderCand t2 inC st y ∧ 8 ≤ y.1 ∧ 8 ≤ y.2.2 ∧ 1 ≤ y.2.1 := by
      intro s hs
      rw [mem_pydedup, List.mem_append] at hs
      rcases hs with hs | hs
      · exact hacc s hs
      · obtain ⟨y, hy, h1, h2, h3⟩ := mem_typeCandidates_good hs
        exact ⟨t, y, hy, h1, h2, h3⟩
    have hne2 : pydedup (acc ++ typeCandidates t inC st os ss bs) ≠ [] := by
      apply pydedup_ne_nil
      intro hnil
      rw [List.append_eq_nil] at hnil
      exact typeCandidates_ne_nil t inC st ho hb hm hm0 hnil.2
    cases rest with
    | nil =>
      rw [genFamilyAux, List.mem_singleton] at hL
      subst hL
      exact ⟨hne2, hacc2⟩
    | cons t2 rest2 =>
      rw [genFamilyAux, List.mem_cons] at hL
      rcases hL with rfl | hL
      · constructor
        · intro h
          rw [List.append_eq_nil] at h
          exact hne2 h.1
        · intro s hs
          rw [List.mem_append] at hs
          rcases hs with hs | hs
          · exact hacc2 s hs
          · obtain ⟨y, hy, h1, h2, h3⟩ := mem_typeCandidates_good hs
            exact ⟨t2, y, hy, h1, h2, h3⟩
      · exact ih _ hacc2 L hL

theorem genFamilyAux_length (inC st : ℕ) (os ss bs : List ℕ) :
    ∀ (ts : List GSType) (acc : List (List Char)),
      (genFamilyAux inC st os ss bs acc ts).length = ts.length := by
  intro ts
  induction ts with
  | nil => intro acc; rfl
  | cons t rest ih =>
    intro acc
    cases rest with
    | nil => rfl
    | cons t2 rest2 => simp only [genFamilyAux, List.length_cons, ih]

/-- Every string of the working list at a type's start, and every raw
candidate of that type, is in the family list returned at that position. -/
theorem genFamilyAux_mem_head (inC st : ℕ) (os ss bs : List ℕ) (t : GSType)
    (ts : List GSType) (acc : List (List Char)) {s : List Char}
    (hs : s ∈ acc ++ typeCandidates t inC st os ss bs) :
    s ∈ (genFamilyAux inC st os ss bs acc (t :: ts)).getD 0 [] := by
  cases ts with
  | nil =>
    rw [genFamilyAux, List.getD_cons_zero, mem_pydedup]
    exact hs
  | cons t2 ts2 =>
    rw [genFamilyAux, List.getD_cons_zero]
    exact List.mem_append_left _ (mem_pydedup.mpr hs)

theorem genFamilyAux_acc_subset (inC st : ℕ) (os ss bs : List ℕ) :
    ∀ (ts : List GSType) (acc : List (List Char)) (j : ℕ), j < ts.length →
      ∀ s ∈ acc, s ∈ (genFamilyAux inC st os ss bs acc ts).getD j [] := by
  intro ts
  induction ts with
  | nil =>
    intro acc j hj s hs
    simp only [List.length_nil] at hj
    omega
  | cons t rest ih =>
    intro acc j hj s hs
    match j with
    | 0 =>
      exact genFamilyAux_mem_head inC st os ss bs t rest acc (List.mem_append_left _ hs)
    | j + 1 =>
      cases rest with
      | nil =>
        simp only [List.length_cons, List.length_nil] at hj
        omega
      | cons t2 rest2 =>
        rw [genFamilyAux, List.getD_cons_succ]
        refine ih _ j (by simp only [List.length_cons] at hj ⊢; omega) s ?_
        rw [mem_pydedup]
        exact List.mem_append_left _ hs

theorem genFamilyAux_chain (inC st : ℕ) (os ss bs : List ℕ) :
    ∀ (ts : List GSType) (acc : List (List Char)) (i j : ℕ), i ≤ j → j < ts.length →
      ∀ s ∈ (genFamilyAux inC st os ss bs acc ts).getD i [],
        s ∈ (genFamilyAux inC st os ss bs acc ts).getD j [] := by
  intro ts
  induction ts with
  | nil =>
    intro acc i j _ hj s _
    simp only [List.length_nil] at hj
    omega
  | cons t rest ih =>
    intro acc i j hij hj s hs
    match i, j with
    | 0, 0 => exact hs
    | 0, j + 1 =>
      cases rest with
      | nil =>
        simp only [List.length_cons, List.length_nil] at hj
        omega
      | cons t2 rest2 =>
        rw [genFamilyAux, List.getD_cons_zero] at hs
        rw [genFamilyAux, List.getD_cons_succ]
        have h0 : s ∈ (genFamilyAux inC st os ss bs
            (pydedup (acc ++ typeCandidates t inC st os ss bs))
            (t2 :: rest2)).getD 0 [] :=
          genFamilyAux_mem_head inC st os ss bs t2 rest2 _ hs
        exact ih _ 0 j (by omega) (by simp only [List.length_cons] at hj ⊢; omega) s h0
    | i + 1, j + 1 =>
      cases rest with
      | nil =>
        simp only [List.length_cons, List.length_nil] at hj
        omega
      | cons t2 rest2 =>
        rw [genFamilyAux, List.getD_cons_succ] at hs
        rw [genFamilyAux, List.getD_cons_succ]
        exact ih _ i j (by omega) (by simp only [List.length_cons] at hj ⊢; omega) s hs

theorem genFamilyAux_type_mem (inC st : ℕ) (os ss bs : List ℕ) (ho : os ≠ [])
    (hb : bs ≠ []) {m : ℕ} (hm : m ∈ ss) (hm0 : m ≠ 0) :
    ∀ (ts : List GSType) (acc : List (List Char)) (i : ℕ), i < ts.length →
      ∃ s ∈ (genFamilyAux inC st os ss bs acc ts).getD i [],
        ∃ tail2, (ts.getD i ghostK3).name ++ tail2 = s := by
  intro ts
  induction ts with
  | nil =>
    intro acc i hi
    simp only [List.length_nil] at hi
    omega
  | cons t rest ih =>
    intro acc i hi
    match i with
    | 0 =>
      obtain ⟨s0, hs0⟩ :=
        List.exists_mem_of_ne_nil _ (typeCandidates_ne_nil t inC st ho hb hm hm0)
      refine ⟨s0, ?_, ?_⟩
      · exact genFamilyAux_mem_head inC st os ss bs t rest acc
          (List.mem_append_right _ hs0)
      · obtain ⟨y, hy, -, -, -⟩ := mem_typeCandidates_good hs0
        exact ⟨'(' :: (fieldsBody [inC, y.1, st, y.2.2, y.2.1] ++ [')']), hy.symm⟩
    | i + 1 =>
      cases rest with
      | nil =>
        simp only [List.length_cons, List.length_nil] at hi
        omega
      | cons t2 rest2 =>
        rw [genFamilyAux]
        simp only [List.getD_cons_succ]
        exact ih _ i (by simp only [List.length_cons] at hi ⊢; omega)

theorem gen_comp_length (inC o st btl sub : ℕ) :
    (gen_search_space (TargetBlock.comp inC o st btl sub)).length = 3 :=
  genFamilyAux_length inC st _ _ _ familyList []

/-! ## C2: generator minimality and non-emptiness -/

/-- **C2**: for every target block with positive channel fields, every
candidate list returned by `gen_search_space` is non-empty (the assertions
never fire), and every returned candidate string is a rendered code whose
sub-layer count is positive and whose rounded channel widths are at least the
type's minimum width 8. -/
theorem spec_c2_minimality (tb : TargetBlock) (hpos : targetPos tb) :
    ∀ L ∈ gen_search_space tb, L ≠ [] ∧ ∀ s ∈ L, candWellFormed tb s := by
  match tb with
  | .leaf nm inC o st k =>
    intro L hL
    rw [gen_search_space, List.mem_singleton] at hL
    subst hL
    constructor
    · apply pydedup_ne_nil
      rw [ne_eq, List.map_eq_nil_iff]
      split
      · simp
      · exact channels_list_ne_nil _
    · intro s hs
      rw [mem_pydedup, List.mem_map] at hs
      obtain ⟨oc, hoc, rfl⟩ := hs
      refine ⟨oc, rfl, ?_, ?_⟩
      · intro hk1
        rw [if_pos hk1, List.mem_singleton] at hoc
        exact hoc
      · intro hk1
        rw [if_neg hk1] at hoc
        exact (mem_channels_list hoc).2
  | .comp inC o st btl sub =>
    intro L hL
    rw [gen_search_space] at hL
    have hres := genFamilyAux_good inC st _ _ _ (channels_list_ne_nil _)
      (channels_list_ne_nil _) (sublayers_mem_add_two sub) (by omega) familyList []
      (by intro s hs; cases hs) L hL
    exact ⟨hres.1, fun s hs => hres.2 s hs⟩

/-- Witness for C2 at a composite block with channels 8 and one sub-layer. -/
theorem spec_c2_minimality_witness :
    targetPos wTarget ∧
    ∀ L ∈ gen_search_space wTarget, L ≠ [] ∧ ∀ s ∈ L, candWellFormed wTarget s :=
  ⟨⟨by decide, by decide⟩, spec_c2_minimality wTarget ⟨by decide, by decide⟩⟩

/-! ## C8: accumulation across the family's types -/

/-- **C8**: within one family, `gen_search_space` accumulates candidates
across the family's types without resetting the working list: the returned
per-type lists form an inclusion chain (every candidate of an earlier type's
list appears in every later type's list), and every list at index `j ≥ i`
contains a candidate string named after the family's `i`-th type. -/
theorem spec_c8_accumulation (inC o st btl sub i j : ℕ) (hij : i ≤ j)
    (hj : j < (gen_search_space (TargetBlock.comp inC o st btl sub)).length) :
    (gen_search_space (TargetBlock.comp inC o st btl sub)).length = familyList.length ∧
    (∀ s ∈ (gen_search_space (TargetBlock.comp inC o st btl sub)).getD i [],
      s ∈ (gen_search_space (TargetBlock.comp inC o st btl sub)).getD j []) ∧
    ∃ s ∈ (gen_search_space (TargetBlock.comp inC o st btl sub)).getD j [],
      ∃ tail2, (familyList.getD i ghostK3).name ++ tail2 = s := by
  have hlen : (gen_search_space (TargetBlock.comp inC o st btl sub)).length =
      familyList.length :=
    genFamilyAux_length inC st _ _ _ familyList []
  have hj3 : j < familyList.length := by rw [hlen] at hj; exact hj
  refine ⟨hlen, ?_, ?_⟩
  · intro s hs
    exact genFamilyAux_chain inC st _ _ _ familyList [] i j hij hj3 s hs
  · obtain ⟨s, hsmem, htail⟩ := genFamilyAux_type_mem inC st _ _ _
      (channels_list_ne_nil _) (channels_list_ne_nil _) (sublayers_mem_add_two sub)
      (by omega) familyList [] i (by omega)
    exact ⟨s, genFamilyAux_chain inC st _ _ _ familyList [] i j hij hj3 s hsmem, htail⟩

/-- Witness for C8 at a composite block, between family positions 0 and 1. -/
theorem spec_c8_accumulation_witness :
    (0 ≤ 1 ∧ 1 < (gen_search_space (TargetBlock.comp 8 8 1 8 1)).length) ∧
    ((gen_search_space (TargetBlock.comp 8 8 1 8 1)).length = familyList.length ∧
      (∀ s ∈ (gen_search_space (TargetBlock.comp 8 8 1 8 1)).getD 0 [],
        s ∈ (gen_search_space (TargetBlock.comp 8 8 1 8 1)).getD 1 []) ∧
      ∃ s ∈ (gen_search_space (TargetBlock.comp 8 8 1 8 1)).getD 1 [],
        ∃ tail2, (familyList.getD 0 ghostK3).name ++ tail2 = s) :=
  ⟨⟨by decide, by simp [gen_comp_length]⟩,
    spec_c8_accumulation 8 8 1 8 1 0 1 (by decide) (by simp [gen_comp_length])⟩

/-! ## Emission-order lemmas -/

theorem pairwise_inner (o : ℕ) {ss bs : List ℕ} (hs : List.Pairwise (· > ·) ss)
    (hb : List.Pairwise (· > ·) bs) :
    List.Pairwise tripleGT (ss.flatMap (fun s => bs.map (fun bt => (o, s, bt)))) := by
  induction ss with
  | nil => exact List.Pairwise.nil
  | cons s ss ih =>
    rw [List.flatMap_cons, List.pairwise_append]
    refine ⟨?_, ih (List.pairwise_cons.mp hs).2, ?_⟩
    · exact hb.map _ (fun a b hab => Or.inr ⟨rfl, Or.inr ⟨rfl, hab⟩⟩)
    · intro x hx y hy
      rw [List.mem_map] at hx
      obtain ⟨bt, _, rfl⟩ := hx
      rw [List.mem_flatMap] at hy
      obtain ⟨s2, hs2, hy2⟩ := hy
      rw [List.mem_map] at hy2
      obtain ⟨bt2, _, rfl⟩ := hy2
      exact Or.inr ⟨rfl, Or.inl ((List.pairwise_cons.mp hs).1 s2 hs2)⟩

theorem pairwise_productTriples {os ss bs : List ℕ}
    (ho : List.Pairwise (· > ·) os) (hs : List.Pairwise (· > ·) ss)
    (hb : List.Pairwise (· > ·) bs) :
    List.Pairwise tripleGT (productTriples os ss bs) := by
  unfold productTriples
  induction os with
  | nil => exact List.Pairwise.nil
  | cons o os ih =>
    rw [List.flatMap_cons, List.pairwise_append]
    refine ⟨pairwise_inner o hs hb, ih (List.pairwise_cons.mp ho).2, ?_⟩
    intro x hx y hy
    rw [List.mem_flatMap] at hx
    obtain ⟨s1, _, hx2⟩ := hx
    rw [List.mem_map] at hx2
    obtain ⟨b1, _, rfl⟩ := hx2
    rw [List.mem_flatMap] at hy
    obtain ⟨o2, ho2, hy2⟩ := hy
    rw [List.mem_flatMap] at hy2
    obtain ⟨s2, _, hy3⟩ := hy2
    rw [List.mem_map] at hy3
    obtain ⟨b2, _, rfl⟩ := hy3
    exact Or.inl ((List.pairwise_cons.mp ho).1 o2 ho2)

theorem dropWhile_append_of_all {p : Char → Bool} {l1 : List Char} (l2 : List Char)
    (h : ∀ c ∈ l1, p c = true) :
    (l1 ++ l2).dropWhile p = l2.dropWhile p := by
  induction l1 with
  | nil => rfl
  | cons c t ih =>
    rw [List.cons_append, List.dropWhile_cons, if_pos (h c (by simp))]
    exact ih (fun x hx => h x (by simp [hx]))

theorem takeWhile_append_cons {p : Char → Bool} {l1 : List Char} {c0 : Char}
    (l2 : List Char) (h : ∀ c ∈ l1, p c = true) (hc : p c0 = false) :
    (l1 ++ c0 :: l2).takeWhile p = l1 := by
  induction l1 with
  | nil => simp [List.takeWhile_cons, hc]
  | cons c t ih =>
    rw [List.cons_append, List.takeWhile_cons, if_pos (h c (by simp))]
    rw [ih (fun x hx => h x (by simp [hx]))]

theorem candOutBtlSub_renderCand {t : GSType} (hnm : ∀ c ∈ t.name, c ≠ '(')
    (inC st : ℕ) (y : ℕ × ℕ × ℕ) :
    candOutBtlSub (renderCand t inC st y) = (y.1, y.2.2, y.2.1) := by
  unfold renderCand renderBlock candOutBtlSub
  rw [dropWhile_append_of_all _ (fun c hc => by simp [hnm c hc])]
  rw [List.dropWhile_cons, if_neg (by simp)]
  simp only [matchCloseAux_append []
      (fun x hx => ⟨(mem_fieldsBody_ne hx).1, (mem_fieldsBody_ne hx).2.1⟩),
    splitOnChar_fieldsBody [inC, y.1, st, y.2.2, y.2.1] (by simp), List.map,
    parseNat_natToChars]
  rfl

theorem candName_renderCand {t : GSType} (hnm : ∀ c ∈ t.name, c ≠ '(')
    (inC st : ℕ) (y : ℕ × ℕ × ℕ) : candName (renderCand t inC st y) = t.name := by
  unfold candName renderCand renderBlock
  exact takeWhile_append_cons _ (fun c hc => by simp [hnm c hc]) (by simp)

theorem typeTriples_eq_filter (t : GSType) (os ss bs : List ℕ)
    (hos : ∀ c ∈ os, 8 ∣ c ∧ 8 ≤ c) (hbs : ∀ c ∈ bs, 8 ∣ c ∧ 8 ≤ c) :
    typeTriples t os ss bs =
      (productTriples os ss bs).filter (fun x => x.2.1 != 0) := by
  unfold typeTriples
  have key : ∀ l : List (ℕ × ℕ × ℕ), (∀ x ∈ l, x.1 ∈ os ∧ x.2.2 ∈ bs) →
      l.filterMap (surviveTriple t) = l.filter (fun x => x.2.1 != 0) := by
    intro l
    induction l with
    | nil => intro _; rfl
    | cons x xs ih =>
      intro hmem
      have hx := hmem x (by simp)
      have hsurv := surviveTriple_aligned t (hos _ hx.1).1 (hos _ hx.1).2
        (hbs _ hx.2).1 (hbs _ hx.2).2
      rw [List.filterMap_cons, List.filter_cons, hsurv,
        ih (fun z hz => hmem z (by simp [hz]))]
      by_cases h0 : x.2.1 = 0
      · rw [if_pos h0]
        simp [h0]
      · rw [if_neg h0]
        simp [h0]
  apply key
  intro x hx
  rw [mem_productTriples] at hx
  exact ⟨hx.1, hx.2.2⟩

theorem typeTriples_pairwise (t : GSType) (oq bq : ℚ) (sn : ℕ) :
    List.Pairwise tripleGT
      (typeTriples t (get_select_student_channels_list oq)
        (get_select_student_sublayers_list sn)
        (get_select_student_channels_list bq)) := by
  rw [typeTriples_eq_filter t _ _ _ (fun c hc => mem_channels_list hc)
    (fun c hc => mem_channels_list hc)]
  exact (pairwise_productTriples (channels_list_pairwise oq)
    (sublayers_list_pairwise sn) (channels_list_pairwise bq)).sublist
    (List.filter_sublist _)

theorem tripleGT_ne {x y : ℕ × ℕ × ℕ} (h : tripleGT x y) :
    (x.1, x.2.2, x.2.1) ≠ (y.1, y.2.2, y.2.1) := by
  intro he
  simp only [Prod.mk.injEq] at he
  unfold tripleGT at h
  rcases h with h | ⟨h1, h | ⟨h2, h3⟩⟩ <;> omega

theorem typeCandidates_nodup (t : GSType) (hnm : ∀ c ∈ t.name, c ≠ '(') (inC st : ℕ)
    {os ss bs : List ℕ} (htri : List.Pairwise tripleGT (typeTriples t os ss bs)) :
    (typeCandidates t inC st os ss bs).Nodup := by
  unfold typeCandidates
  exact htri.map _ (fun a b hab heq =>
    tripleGT_ne hab (by
      rw [← candOutBtlSub_renderCand hnm inC st a, ← candOutBtlSub_renderCand hnm inC st b,
        heq]))

theorem genFamilyAux_eq_accLists (inC st : ℕ) (os ss bs : List ℕ) :
    ∀ (ts : List GSType) (acc : List (List Char)),
      acc.Nodup →
      (∀ t ∈ ts, ∀ c ∈ t.name, c ≠ '(') →
      (∀ t ∈ ts, List.Pairwise tripleGT (typeTriples t os ss bs)) →
      (∀ s ∈ acc, ∀ t ∈ ts, candName s ≠ t.name) →
      List.Pairwise (fun t1 t2 : GSType => t1.name ≠ t2.name) ts →
      genFamilyAux inC st os ss bs acc ts = accLists inC st os ss bs acc ts := by
  intro ts
  induction ts with
  | nil => intro acc _ _ _ _ _; rfl
  | cons t rest ih =>
    intro acc haccnd hnames htri hdisj hpw
    have hnmt : ∀ c ∈ t.name, c ≠ '(' := hnames t (by simp)
    have htc : (typeCandidates t inC st os ss bs).Nodup :=
      typeCandidates_nodup t hnmt inC st (htri t (by simp))
    have happ : (acc ++ typeCandidates t inC st os ss bs).Nodup := by
      rw [List.nodup_append]
      refine ⟨haccnd, htc, ?_⟩
      intro s hsacc hstc
      obtain ⟨y, hy, -, -, -⟩ := mem_typeCandidates_good hstc
      exact hdisj s hsacc t (by simp)
        (by rw [hy]; exact candName_renderCand hnmt inC st y)
    have hrec := ih (acc ++ typeCandidates t inC st os ss bs) happ
      (fun t2 ht2 => hnames t2 (by simp [ht2]))
      (fun t2 ht2 => htri t2 (by simp [ht2]))
      (by
        intro s hs t2 ht2
        rw [List.mem_append] at hs
        rcases hs with hs | hs
        · exact hdisj s hs t2 (by simp [ht2])
        · obtain ⟨y, hy, -, -, -⟩ := mem_typeCandidates_good hs
          rw [hy, candName_renderCand hnmt]
          exact (List.pairwise_cons.mp hpw).1 t2 ht2)
      (List.pairwise_cons.mp hpw).2
    cases rest with
    | nil => rw [genFamilyAux, accLists, pydedup_eq_self happ]
    | cons t2 rest2 =>
      rw [genFamilyAux, accLists, pydedup_eq_self happ]
      congr 1

/-! ## C5: candidate ordering -/

/-- **C5** (corrected): deduplication is the identity on what
`gen_search_space` accumulates, so each returned list is exactly a
concatenation of per-type candidate segments in family order — the list at
index `j` holds the segments of types `0..j` and, because the appended list
object is mutated by the following type's appends, also type `j + 1`'s
segment; the last list holds all segments.  Within each segment the emitted
parameter triples are in strictly descending
`(out_channels, sub_layers, bottleneck_channels)` lexicographic order — the
tie-break order is sub-layers before bottleneck, not the claimed bottleneck
before sub-layers, and the primary key is the rounded width, not the ratio. -/
theorem spec_c5_order (inC o st btl sub : ℕ) :
    gen_search_space (TargetBlock.comp inC o st btl sub) =
      accLists inC st (get_select_student_channels_list (o : ℚ))
        (get_select_student_sublayers_list sub)
        (get_select_student_channels_list (btl : ℚ)) [] familyList ∧
    ∀ t ∈ familyList,
      List.Pairwise tripleGT
        (typeTriples t (get_select_student_channels_list (o : ℚ))
          (get_select_student_sublayers_list sub)
          (get_select_student_channels_list (btl : ℚ))) := by
  constructor
  · apply genFamilyAux_eq_accLists
    · exact List.nodup_nil
    · decide
    · intro t _
      exact typeTriples_pairwise t _ _ _
    · intro s hs
      cases hs
    · decide
  · intro t _
    exact typeTriples_pairwise t _ _ _

/-- Witness for C5 at a composite block with channels 8 and one sub-layer. -/
theorem spec_c5_order_witness :
    ghostK3 ∈ familyList ∧
    List.Pairwise tripleGT
      (typeTriples ghostK3 (get_select_student_channels_list ((8 : ℕ) : ℚ))
        (get_select_student_sublayers_list 1)
        (get_select_student_channels_list ((8 : ℕ) : ℚ))) :=
  ⟨by decide, (spec_c5_order 8 8 1 8 1).2 ghostK3 (by decide)⟩

/-! ## Concrete evaluation of the candidate lists -/

theorem smart_round_val (n : ℤ) {x : ℚ} {r : ℕ} (h1 : (n : ℚ) ≤ x / 8 + 1 / 2)
    (h2 : x / 8 + 1 / 2 < n + 1) (h3 : max 8 (n.toNat * 8) = r) :
    smart_round x 8 = r := by
  unfold smart_round
  rw [show ((8 : ℕ) : ℚ) = (8 : ℚ) from by norm_num, round_eq,
    Int.floor_eq_iff.mpr ⟨h1, h2⟩, h3]

/-- The swept channel widths for `out_channels = 8`: ratios above 1 reach 24
and 16, everything at or below 8 is floored and rounded to 8. -/
theorem channels_eight : get_select_student_channels_list ((8 : ℕ) : ℚ) = [24, 16, 8] := by
  have m1 : max (8 : ℚ) (((8 : ℕ) : ℚ) * (5 / 2)) = 20 := by
    rw [max_eq_right (by push_cast; norm_num)]
    push_cast
    norm_num
  have m2 : max (8 : ℚ) (((8 : ℕ) : ℚ) * 2) = 16 := by
    rw [max_eq_right (by push_cast; norm_num)]
    push_cast
    norm_num
  have m3 : max (8 : ℚ) (((8 : ℕ) : ℚ) * (3 / 2)) = 12 := by
    rw [max_eq_right (by push_cast; norm_num)]
    push_cast
    norm_num
  have m4 : max (8 : ℚ) (((8 : ℕ) : ℚ) * (5 / 4)) = 10 := by
    rw [max_eq_right (by push_cast; norm_num)]
    push_cast
    norm_num
  have m5 : max (8 : ℚ) ((8 : ℕ) : ℚ) = 8 := by
    rw [show ((8 : ℕ) : ℚ) = (8 : ℚ) from by norm_num, max_self]
  have m6 : max (8 : ℚ) (((8 : ℕ) : ℚ) / (5 / 4)) = 8 := by
    rw [max_eq_left (by push_cast; norm_num)]
  have m7 : max (8 : ℚ) (((8 : ℕ) : ℚ) / (3 / 2)) = 8 := by
    rw [max_eq_left (by push_cast; norm_num)]
  have m8 : max (8 : ℚ) (((8 : ℕ) : ℚ) / 2) = 8 := by
    rw [max_eq_left (by push_cast; norm_num)]
  have m9 : max (8 : ℚ) (((8 : ℕ) : ℚ) / (5 / 2)) = 8 := by
    rw [max_eq_left (by push_cast; norm_num)]
  have s20 : smart_round (20 : ℚ) 8 = 24 := smart_round_val 3 (by norm_num) (by norm_num) (by decide)
  have s16 : smart_round (16 : ℚ) 8 = 16 := smart_round_val 2 (by norm_num) (by norm_num) (by decide)
  have s12 : smart_round (12 : ℚ) 8 = 16 := smart_round_val 2 (by norm_num) (by norm_num) (by decide)
  have s10 : smart_round (10 : ℚ) 8 = 8 := smart_round_val 1 (by norm_num) (by norm_num) (by decide)
  have s8 : smart_round (8 : ℚ) 8 = 8 := smart_round_val 1 (by norm_num) (by norm_num) (by decide)
  unfold get_select_student_channels_list
  simp only [List.map_cons, List.map_nil, m1, m2, m3, m4, m5, m6, m7, m8, m9,
    s20, s16, s12, s10, s8]
  decide

/-- **C5 counterexample**: for the composite block with channels 8, stride 1
and one sub-layer, the first returned candidate list is not sorted by
descending out-channel width with ties broken by descending bottleneck then
descending sub-layers — the generator emits, for equal out-channel width, all
sub-layer counts for a larger bottleneck before any smaller bottleneck, so
the claimed comparator fails inside the returned list. -/
theorem spec_c5_counterexample :
    ¬ (gen_search_space wTarget).headI.Pairwise specCandGE := by
  have hsubs : get_select_student_sublayers_list 1 = [3, 2, 1, 0] := by decide
  have htt3 := typeTriples_eq_filter ghostK3 [24, 16, 8] [3, 2, 1, 0] [24, 16, 8]
    (by decide) (by decide)
  have htt5 := typeTriples_eq_filter ghostK5 [24, 16, 8] [3, 2, 1, 0] [24, 16, 8]
    (by decide) (by decide)
  have hhead : (gen_search_space wTarget).headI =
      pydedup (typeCandidates ghostK3 8 1 [24, 16, 8] [3, 2, 1, 0] [24, 16, 8]) ++
        typeCandidates ghostK5 8 1 [24, 16, 8] [3, 2, 1, 0] [24, 16, 8] := by
    show (genFamilyAux 8 1 (get_select_student_channels_list ((8 : ℕ) : ℚ))
      (get_select_student_sublayers_list 1)
      (get_select_student_channels_list ((8 : ℕ) : ℚ)) [] familyList).headI = _
    rw [channels_eight, hsubs]
    rfl
  rw [hhead]
  unfold typeCandidates
  rw [htt3, htt5, pydedup_eq_self (by decide)]
  decide

/-! ## C9: one_hot rows -/

theorem sum_map_affine (l : List ℚ) (a b : ℚ) :
    (l.map (fun y => y * a + b)).sum = a * l.sum + l.length * b := by
  induction l with
  | nil => simp
  | cons x xs ih =>
    simp only [List.map_cons, List.sum_cons, ih, List.length_cons]
    push_cast
    ring

theorem sum_indicator {label C : ℕ} (h : label < C) :
    ((List.range C).map (fun j => if j = label then (1 : ℚ) else 0)).sum = 1 := by
  induction C with
  | zero => omega
  | succ C ih =>
    rw [List.range_succ, List.map_append, List.sum_append]
    by_cases hl : label < C
    · rw [ih hl]
      have hne : ¬(C = label) := by omega
      simp [hne]
    · have hC : label = C := by omega
      subst hC
      have h0 : ((List.range label).map (fun j => if j = label then (1 : ℚ) else 0)).sum = 0 :=
        List.sum_eq_zero (by
          intro x hx
          rw [List.mem_map] at hx
          obtain ⟨j, hj, rfl⟩ := hx
          rw [List.mem_range] at hj
          rw [if_neg (by omega)])
      rw [h0]
      simp

/-- **C9**: for every `label < num_classes` and every smoothing setting, the
`one_hot` row sums to exactly 1 in exact arithmetic, and with smoothing it
holds `1 - eps + eps/num_classes` at the label index and `eps/num_classes`
everywhere else. -/
theorem spec_c9_one_hot (label C : ℕ) (eps : Option ℚ) (h : label < C) :
    (one_hot label C eps).sum = 1 ∧
    ∀ e : ℚ, eps = some e → ∀ j : ℕ, j < C →
      (one_hot label C eps).getD j 0 =
        if j = label then 1 - e + e / (C : ℚ) else e / (C : ℚ) := by
  have hC : (C : ℚ) ≠ 0 := Nat.cast_ne_zero.mpr (by omega)
  constructor
  · match eps with
    | none => exact sum_indicator h
    | some e =>
      show ((List.range C).map
          ((fun y => y * ((1 - e + e / (C : ℚ)) - e / (C : ℚ)) + e / (C : ℚ)) ∘
            (fun j => if j = label then (1 : ℚ) else 0))).sum = 1
      rw [← List.map_map, sum_map_affine, sum_indicator h]
      simp only [List.length_map, List.length_range]
      field_simp
  · intro e heps j hj
    subst heps
    unfold one_hot
    rw [List.getD_eq_getElem _ _ (by simp [hj])]
    simp only [List.getElem_map, List.getElem_range]
    by_cases hjl : j = label
    · rw [if_pos hjl, if_pos hjl]
      ring
    · rw [if_neg hjl, if_neg hjl]
      ring

/-- Witness for C9 at label 2 of 5 classes with smoothing 1/10. -/
theorem spec_c9_one_hot_witness :
    2 < 5 ∧ (one_hot 2 5 (some (1 / 10))).sum = 1 ∧
    (one_hot 2 5 (some (1 / 10))).getD 2 0 =
      (if 2 = 2 then 1 - 1 / 10 + (1 / 10) / ((5 : ℕ) : ℚ)
        else (1 / 10) / ((5 : ℕ) : ℚ)) ∧
    (one_hot 2 5 (some (1 / 10))).getD 0 0 =
      (if 0 = 2 then 1 - 1 / 10 + (1 / 10) / ((5 : ℕ) : ℚ)
        else (1 / 10) / ((5 : ℕ) : ℚ)) :=
  ⟨by decide, (spec_c9_one_hot 2 5 (some (1 / 10)) (by decide)).1,
    (spec_c9_one_hot 2 5 (some (1 / 10)) (by decide)).2 (1 / 10) rfl 2 (by decide),
    (spec_c9_one_hot 2 5 (some (1 / 10)) (by decide)).2 (1 / 10) rfl 0 (by decide)⟩

/-! ## C10: the AverageMeter invariant -/

theorem meter_fold_invariant (us : List (ℚ × ℚ)) :
    ∀ m : AverageMeter, (∀ u ∈ us, 0 < u.2) → m.avg * m.count = m.sum → 0 ≤ m.count →
      (us.foldl (fun m u => m.update u.1 u.2) m).avg *
          (us.foldl (fun m u => m.update u.1 u.2) m).count =
        (us.foldl (fun m u => m.update u.1 u.2) m).sum ∧
      0 ≤ (us.foldl (fun m u => m.update u.1 u.2) m).count := by
  induction us with
  | nil => intro m _ h1 h2; exact ⟨h1, h2⟩
  | cons u us ih =>
    intro m hpos h1 h2
    rw [List.foldl_cons]
    have hu := hpos u (by simp)
    apply ih _ (fun x hx => hpos x (by simp [hx]))
    · show ((m.sum + u.1 * u.2) / (m.count + u.2)) * (m.count + u.2) = m.sum + u.1 * u.2
      have hc : m.count + u.2 ≠ 0 := ne_of_gt (by linarith)
      rw [div_mul_cancel₀ _ hc]
    · show 0 ≤ m.count + u.2
      linarith

/-- **C10**: starting from `reset` (which zeroes `val`, `avg`, `sum`,
`count`), after any sequence of `update(val, num)` calls with positive `num`,
the meter satisfies `avg * count = sum`, and `avg = sum / count` whenever
`count > 0`, in exact arithmetic. -/
theorem spec_c10_average_meter (m0 : AverageMeter) (us : List (ℚ × ℚ))
    (hpos : ∀ u ∈ us, 0 < u.2) :
    m0.reset = { val := 0, avg := 0, sum := 0, count := 0 } ∧
    (us.foldl (fun m u => m.update u.1 u.2) m0.reset).avg *
        (us.foldl (fun m u => m.update u.1 u.2) m0.reset).count =
      (us.foldl (fun m u => m.update u.1 u.2) m0.reset).sum ∧
    (0 < (us.foldl (fun m u => m.update u.1 u.2) m0.reset).count →
      (us.foldl (fun m u => m.update u.1 u.2) m0.reset).avg =
        (us.foldl (fun m u => m.update u.1 u.2) m0.reset).sum /
          (us.foldl (fun m u => m.update u.1 u.2) m0.reset).count) := by
  have key := meter_fold_invariant us m0.reset hpos (by show (0 : ℚ) * 0 = 0; ring)
    (le_refl 0)
  refine ⟨rfl, key.1, fun hc => ?_⟩
  exact (eq_div_iff (ne_of_gt hc)).mpr key.1

/-- Witness for C10 after two updates `(3, 2)` and `(5, 1)`. -/
theorem spec_c10_average_meter_witness :
    (∀ u ∈ [((3 : ℚ), (2 : ℚ)), (5, 1)], 0 < u.2) ∧
    ((⟨1, 2, 3, 4⟩ : AverageMeter).reset = { val := 0, avg := 0, sum := 0, count := 0 } ∧
      (([((3 : ℚ), (2 : ℚ)), (5, 1)]).foldl (fun m u => m.update u.1 u.2)
            (⟨1, 2, 3, 4⟩ : AverageMeter).reset).avg *
          (([((3 : ℚ), (2 : ℚ)), (5, 1)]).foldl (fun m u => m.update u.1 u.2)
            (⟨1, 2, 3, 4⟩ : AverageMeter).reset).count =
        (([((3 : ℚ), (2 : ℚ)), (5, 1)]).foldl (fun m u => m.update u.1 u.2)
          (⟨1, 2, 3, 4⟩ : AverageMeter).reset).sum ∧
      (0 < (([((3 : ℚ), (2 : ℚ)), (5, 1)]).foldl (fun m u => m.update u.1 u.2)
            (⟨1, 2, 3, 4⟩ : AverageMeter).reset).count →
        (([((3 : ℚ), (2 : ℚ)), (5, 1)]).foldl (fun m u => m.update u.1 u.2)
              (⟨1, 2, 3, 4⟩ : AverageMeter).reset).avg =
          (([((3 : ℚ), (2 : ℚ)), (5, 1)]).foldl (fun m u => m.update u.1 u.2)
              (⟨1, 2, 3, 4⟩ : AverageMeter).reset).sum /
            (([((3 : ℚ), (2 : ℚ)), (5, 1)]).foldl (fun m u => m.update u.1 u.2)
              (⟨1, 2, 3, 4⟩ : AverageMeter).reset).count)) :=
  ⟨by decide, spec_c10_average_meter ⟨1, 2, 3, 4⟩ [((3 : ℚ), (2 : ℚ)), (5, 1)] (by decide)⟩

end ZenNas
